import Mathlib

/-! Crane unloading: exhaustive search and dynamic programming.

A shallow embedding of `cranes_algs.hpp` (namespace `cranes`) and the properties
of its two algorithms, `crane_unloading_exhaustive` and `crane_unloading_dyn_prog`.

The header `cranes_types.hpp` (the `grid` and `path` classes) is not among the
sources; the two types are modelled from the specification's data model and
external-interface sections. The two algorithms are translated from the source.
-/

namespace cranes

/-! ## Data model -/

/-- Modelled from the spec: the cell classification of `cranes_types.hpp`
(missing), "each cell tagged as one of {OPEN, BUILDING, CRANE}". -/
inductive cell_kind where
  | CELL_OPEN
  | CELL_BUILDING
  | CELL_CRANE
  deriving DecidableEq, Repr

/-- Modelled from the spec: the step direction of `cranes_types.hpp` (missing),
"a two-valued enumeration: SOUTH, EAST". -/
inductive step_direction where
  | STEP_DIRECTION_SOUTH
  | STEP_DIRECTION_EAST
  deriving DecidableEq, Repr

open cell_kind step_direction

/-- Modelled from the spec: the `grid` class of `cranes_types.hpp` (missing),
"exposing: row count, column count, and a per-cell classification query by
(row, column)". Coordinates are zero-based, row increasing southward, column
increasing eastward. -/
structure grid where
  rows : Nat
  columns : Nat
  get : Nat → Nat → cell_kind

/-- Modelled from the spec: the `path` class of `cranes_types.hpp` (missing),
"an ordered sequence of steps taken from the fixed origin (0,0) through the
grid, together with derived state: current position, and the running count of
distinct crane cells visited". The grid a path is built against is passed to
each operation. -/
structure path where
  steps : List step_direction
  final_row : Nat
  final_column : Nat
  total_cranes : Nat
  deriving DecidableEq, Repr

/-- Modelled from the spec: the bounds and not-a-building check behind
`is_step_valid` in `cranes_types.hpp` (missing). -/
def grid.may_step (g : grid) (r c : Nat) : Bool :=
  decide (r < g.rows) && decide (c < g.columns) && decide (g.get r c ≠ CELL_BUILDING)

/-- Modelled from the spec: the constructor `path(setting)` of
`cranes_types.hpp` (missing), "construction anchored to a grid at the origin";
the origin cell counts as visited, so a crane there is counted. -/
def path.start (g : grid) : path :=
  { steps := [], final_row := 0, final_column := 0,
    total_cranes := if g.get 0 0 = CELL_CRANE then 1 else 0 }

/-- Modelled from the spec: the move a step makes (`cranes_types.hpp`, missing),
"row increasing southward, column increasing eastward": the cell a step in
direction `d` leads to from the cell `rc`. -/
def step_direction.target (d : step_direction) (rc : Nat × Nat) : Nat × Nat :=
  match d with
  | STEP_DIRECTION_SOUTH => (rc.1 + 1, rc.2)
  | STEP_DIRECTION_EAST => (rc.1, rc.2 + 1)

/-- Modelled from the spec: the "current position" of a path
(`cranes_types.hpp`, missing), as a cell. -/
def path.final_cell (p : path) : Nat × Nat :=
  (p.final_row, p.final_column)

/-- Modelled from the spec: `path::is_step_valid` of `cranes_types.hpp`
(missing), "is step D valid from the current end? (bounds + not-a-building
check)". -/
def path.is_step_valid (g : grid) (p : path) (d : step_direction) : Bool :=
  g.may_step (d.target p.final_cell).1 (d.target p.final_cell).2

/-- Modelled from the spec: `path::add_step` of `cranes_types.hpp` (missing),
"extend by step D (undefined/fatal if not valid)". Both algorithms call it only
under `is_step_valid`, so the model gives the extension itself. -/
def path.add_step (g : grid) (p : path) (d : step_direction) : path :=
  { steps := p.steps ++ [d],
    final_row := (d.target p.final_cell).1,
    final_column := (d.target p.final_cell).2,
    total_cranes := p.total_cranes +
      (if g.get (d.target p.final_cell).1 (d.target p.final_cell).2 = CELL_CRANE
        then 1 else 0) }

/-! ## Exhaustive search (`cranes_algs.hpp`, lines 31-80) -/

/-- The value of `setting.rows() + setting.columns() - 2` in `size_t`
(unsigned 64-bit) arithmetic (line 38). -/
def max_steps (g : grid) : Nat :=
  (g.rows + g.columns + (2 ^ 64 - 2)) % 2 ^ 64

/-- The value of `uint64_t(1) << steps` (line 45). -/
def Pos_Int (steps : Nat) : Nat :=
  (1 <<< steps) % 2 ^ 64

/-- One iteration of the loop of lines 52-72: read bit `i` of `MyBit`; take the
step when it is valid, otherwise clear `status` and leave the candidate as it
is. -/
def candidate_step (g : grid) (MyBit : Nat) (cs : path × Bool) (i : Nat) : path × Bool :=
  if (MyBit >>> i) &&& 1 = 1 then
    if cs.1.is_step_valid g STEP_DIRECTION_EAST then
      (cs.1.add_step g STEP_DIRECTION_EAST, cs.2)
    else (cs.1, false)
  else
    if cs.1.is_step_valid g STEP_DIRECTION_SOUTH then
      (cs.1.add_step g STEP_DIRECTION_SOUTH, cs.2)
    else (cs.1, false)

/-- Lines 49-72: the candidate built from bit mask `MyBit` with `steps` steps,
together with its `status` flag. -/
def build_candidate (g : grid) (steps MyBit : Nat) : path × Bool :=
  (List.range steps).foldl (candidate_step g MyBit) (path.start g, true)

/-- Lines 73-76: keep the candidate when it is complete and collects strictly
more cranes than `best`. -/
def keep_best (best : path) (cs : path × Bool) : path :=
  if cs.2 && decide (cs.1.total_cranes > best.total_cranes) then cs.1 else best

/-- Lines 47-77: the loop over the bit masks `0 .. Pos_Int - 1`, up to `bound`. -/
def mask_loop (g : grid) (steps bound : Nat) (best : path) : path :=
  (List.range bound).foldl (fun b MyBit => keep_best b (build_candidate g steps MyBit)) best

/-- Lines 43-78: the loop over `steps = 1 .. n`. -/
def steps_loop (g : grid) (n : Nat) (best : path) : path :=
  (List.range n).foldl (fun b k => mask_loop g (k + 1) (Pos_Int (k + 1)) b) best

/-- The function `crane_unloading_exhaustive`; `none` is a failed assertion
(lines 34, 35 and 39). -/
def crane_unloading_exhaustive (g : grid) : Option path :=
  if g.rows = 0 then none
  else if g.columns = 0 then none
  else if 64 ≤ max_steps g then none
  else some (steps_loop g (max_steps g) (path.start g))

/-! ## Dynamic programming (`cranes_algs.hpp`, lines 95-169) -/

/-- The table `A` of optional paths, indexed by row and column. -/
abbrev table := Nat → Nat → Option path

/-- The assignment `A[row][col] = v`. -/
def table.set (A : table) (row col : Nat) (v : Option path) : table :=
  fun r c => if r = row ∧ c = col then v else A r c

/-- Lines 115-122 and 123-130: copy the predecessor entry and extend it by `d`
when that step is valid. -/
def extend_entry (g : grid) (e : Option path) (d : step_direction) : Option path :=
  match e with
  | none => none
  | some p => if p.is_step_valid g d then some (p.add_step g d) else some p

/-- Lines 108-152: the body of the fill loop for the cell `(row, col)`. -/
def fill_cell (g : grid) (A : table) (row col : Nat) : table :=
  if g.get row col ≠ CELL_BUILDING then
    let Overhead : Option path :=
      if 0 < row ∧ (A (row - 1) col).isSome then
        extend_entry g (A (row - 1) col) STEP_DIRECTION_SOUTH
      else none
    let At_West : Option path :=
      if 0 < col ∧ (A row (col - 1)).isSome then
        extend_entry g (A row (col - 1)) STEP_DIRECTION_EAST
      else none
    let A1 : table :=
      match Overhead, At_West with
      | some o, some w =>
        if o.total_cranes > w.total_cranes then A.set row col Overhead
        else A.set row col At_West
      | _, _ => A
    let A2 : table :=
      if Overhead.isSome ∧ ¬ At_West.isSome then A1.set row col Overhead else A1
    if At_West.isSome ∧ ¬ Overhead.isSome then A2.set row col At_West else A2
  else A

/-- Lines 106-153: the loop over the first `n` columns of row `row`. -/
def fill_row (g : grid) (row n : Nat) (A : table) : table :=
  (List.range n).foldl (fun T col => fill_cell g T row col) A

/-- Lines 104-154: the loop over the first `n` rows. -/
def fill_rows (g : grid) (n : Nat) (A : table) : table :=
  (List.range n).foldl (fun T row => fill_row g row g.columns T) A

/-- Lines 101-154: the table after the fill loop. -/
def fill_table (g : grid) : table :=
  fill_rows g g.rows (table.set (fun _ _ => none) 0 0 (some (path.start g)))

/-- Line 161: move `best` (the coordinates of the cell it points to) to
`(row, col)` when that entry is present and collects strictly more cranes. -/
def scan_cell (A : table) (best : Nat × Nat) (row col : Nat) : Nat × Nat :=
  match A row col, A best.1 best.2 with
  | some p, some b => if p.total_cranes > b.total_cranes then (row, col) else best
  | _, _ => best

/-- Lines 159-165: the scan of the first `n` columns of row `row`. -/
def scan_row (A : table) (row n : Nat) (best : Nat × Nat) : Nat × Nat :=
  (List.range n).foldl (fun b col => scan_cell A b row col) best

/-- Lines 157-166: the scan of the first `n` rows. -/
def scan_rows (g : grid) (A : table) (n : Nat) (best : Nat × Nat) : Nat × Nat :=
  (List.range n).foldl (fun b row => scan_row A row g.columns b) best

/-- The cell `best` points to after the scan of lines 155-166. -/
def best_cell (g : grid) : Nat × Nat :=
  scan_rows g (fill_table g) g.rows (0, 0)

/-- The function `crane_unloading_dyn_prog`; `none` is a failed assertion: the
two on the grid size (lines 98-99), the one after `A[0][0]` is set (line 103),
the one on `best` before the scan (line 156) and the one on `best` after it
(line 167), where the entry `best` points to is returned. -/
def crane_unloading_dyn_prog (g : grid) : Option path :=
  if g.rows = 0 then none
  else if g.columns = 0 then none
  else if ¬ (table.set (fun _ _ => none) 0 0 (some (path.start g)) 0 0).isSome then none
  else
    match fill_table g 0 0 with
    | none => none
    | some _ => fill_table g (best_cell g).1 (best_cell g).2

/-! ## Step sequences replayed on the grid -/

/-- Replaying `ds` from the cell `rc`: every cell entered is in bounds and not a
building. -/
def replay_ok (g : grid) : Nat × Nat → List step_direction → Bool
  | _, [] => true
  | rc, d :: ds =>
    g.may_step (d.target rc).1 (d.target rc).2 && replay_ok g (d.target rc) ds

/-- The cell reached by replaying `ds` from the cell `rc`. -/
def end_cell : Nat × Nat → List step_direction → Nat × Nat
  | rc, [] => rc
  | rc, d :: ds => end_cell (d.target rc) ds

/-- The number of crane cells entered by replaying `ds` from the cell `rc`. -/
def cranes_entered (g : grid) : Nat × Nat → List step_direction → Nat
  | _, [] => 0
  | rc, d :: ds =>
    (if g.get (d.target rc).1 (d.target rc).2 = CELL_CRANE then 1 else 0) +
      cranes_entered g (d.target rc) ds

/-- The crane count of the step sequence `ds` taken from the origin: the crane
cells it occupies, the origin included. -/
def crane_count (g : grid) (ds : List step_direction) : Nat :=
  (if g.get 0 0 = CELL_CRANE then 1 else 0) + cranes_entered g (0, 0) ds

/-- A step sequence is a valid path from the origin: every cell it occupies,
the origin included, is in bounds and not a building. -/
def valid_steps (g : grid) (ds : List step_direction) : Bool :=
  g.may_step 0 0 && replay_ok g (0, 0) ds

/-- The bit mask of a step sequence: bit `i` is 1 when step `i` is EAST and 0
when it is SOUTH. -/
def mask_of : List step_direction → Nat
  | [] => 0
  | STEP_DIRECTION_SOUTH :: ds => 2 * mask_of ds
  | STEP_DIRECTION_EAST :: ds => 2 * mask_of ds + 1

/-- The step sequence read from bits `0 .. n-1` of `m`, least significant
first: 1 is EAST, 0 is SOUTH (line 55). -/
def steps_of_mask (m n : Nat) : List step_direction :=
  (List.range n).map
    (fun i => if (m >>> i) &&& 1 = 1 then STEP_DIRECTION_EAST else STEP_DIRECTION_SOUTH)

/-- The enumeration order of the exhaustive search: fewer steps first, and for
equal step counts the smaller bit mask first. -/
def enumerated_before (ds es : List step_direction) : Prop :=
  ds.length < es.length ∨ (ds.length = es.length ∧ mask_of ds < mask_of es)

/-- Row-major order on cells: lower row first, then lower column. -/
def row_major_before (a b : Nat × Nat) : Prop :=
  a.1 < b.1 ∨ (a.1 = b.1 ∧ a.2 < b.2)

/-- The path value the `path` operations build for the step sequence `ds`. -/
def path_of (g : grid) (ds : List step_direction) : path :=
  { steps := ds,
    final_row := (end_cell (0, 0) ds).1,
    final_column := (end_cell (0, 0) ds).2,
    total_cranes := crane_count g ds }

/-- Build a grid from its rows; cells outside the listed ones read as OPEN and
are never queried by the algorithms. -/
def grid.of_rows (cells : List (List cell_kind)) : grid :=
  { rows := cells.length,
    columns := (cells.headD []).length,
    get := fun r c => (cells.getD r []).getD c CELL_OPEN }

/-- The 2x2 grid `[[OPEN, CRANE], [CRANE, OPEN]]`. -/
def grid_2x2 : grid :=
  grid.of_rows [[CELL_OPEN, CELL_CRANE], [CELL_CRANE, CELL_OPEN]]

/-- The step sequences the exhaustive search has tried when it reaches step
count `n` and bit mask `M`: the shorter ones, and those of `n` steps with a
smaller mask. -/
def enumerated (n M : Nat) (ds : List step_direction) : Prop :=
  ds.length < n ∨ (ds.length = n ∧ mask_of ds < M)

/-- Loop invariant of the exhaustive search: `best` is the path of a valid
sequence already tried, no valid sequence already tried collects more cranes,
and those tried before it collect strictly fewer. -/
def first_best (g : grid) (n M : Nat) (best : path) : Prop :=
  (∃ ds, best = path_of g ds ∧ replay_ok g (0, 0) ds = true ∧ enumerated n M ds) ∧
    ∀ es, replay_ok g (0, 0) es = true → enumerated n M es →
      crane_count g es ≤ best.total_cranes ∧
        (enumerated_before es best.steps → crane_count g es < best.total_cranes)

/-- The step sequence `ds` is valid from the origin and ends at the cell `rc`. -/
def reaches (g : grid) (rc : Nat × Nat) (ds : List step_direction) : Prop :=
  replay_ok g (0, 0) ds = true ∧ end_cell (0, 0) ds = rc

/-- The table entry `o` is right for the step sequences satisfying `Q`: when
present it is the path of one of them with the largest crane count, and it is
absent only when there is none. -/
def best_of (g : grid) (Q : List step_direction → Prop) (o : Option path) : Prop :=
  match o with
  | some p => ∃ ds, p = path_of g ds ∧ Q ds ∧ ∀ es, Q es → crane_count g es ≤ crane_count g ds
  | none => ∀ es, ¬ Q es

/-- The cells a row-major loop has handled when it reaches row `R`, column `C`. -/
def visited (g : grid) (R C : Nat) (rc : Nat × Nat) : Prop :=
  rc.2 < g.columns ∧ (rc.1 < R ∨ (rc.1 = R ∧ rc.2 < C))

/-- Loop invariant of the fill loop: the entries of the cells handled so far are
right, the origin holds the zero-step path, and nothing else is present. -/
def fill_inv (g : grid) (R C : Nat) (A : table) : Prop :=
  (∀ r c, visited g R C (r, c) → best_of g (reaches g (r, c)) (A r c)) ∧
    (∀ r c, ¬ visited g R C (r, c) → (r, c) ≠ (0, 0) → A r c = none) ∧
    A 0 0 = some (path.start g)

/-- The merge of lines 133-151: the value `A[row][col]` holds after them, given
the two candidates and its value `cur` before. -/
def merge_entries (o w cur : Option path) : Option path :=
  match o, w with
  | some a, some b => if a.total_cranes > b.total_cranes then some a else some b
  | some a, none => some a
  | none, some b => some b
  | none, none => cur

/-- Loop invariant of the final scan: `best` points to a present entry of a cell
already scanned (or the origin), no scanned entry collects more cranes, and the
scanned entries before it in row-major order collect strictly fewer. -/
def scan_inv (g : grid) (A : table) (R C : Nat) (best : Nat × Nat) : Prop :=
  (best = (0, 0) ∨ visited g R C best) ∧
    ∃ b, A best.1 best.2 = some b ∧
      ∀ r c q, visited g R C (r, c) → A r c = some q →
        q.total_cranes ≤ b.total_cranes ∧
          (row_major_before (r, c) best → q.total_cranes < b.total_cranes)

/-- Replayed from the origin, `ds` stays inside the grid and off the buildings:
the cell occupied after each number `k` of steps is in bounds and not a
building. -/
def stays_clear (g : grid) (ds : List step_direction) : Prop :=
  ∀ k, k ≤ ds.length →
    (end_cell (0, 0) (ds.take k)).1 < g.rows ∧
      (end_cell (0, 0) (ds.take k)).2 < g.columns ∧
      g.get (end_cell (0, 0) (ds.take k)).1 (end_cell (0, 0) (ds.take k)).2 ≠ CELL_BUILDING

/-- A 3x3 grid with one building: `[[., c, .], [X, ., c], [c, ., c]]`. -/
def grid_3x3 : grid :=
  grid.of_rows [[CELL_OPEN, CELL_CRANE, CELL_OPEN],
    [CELL_BUILDING, CELL_OPEN, CELL_CRANE],
    [CELL_CRANE, CELL_OPEN, CELL_CRANE]]

/-- A 2x2 grid whose origin is walled in: `[[., X], [X, c]]`. -/
def grid_walled : grid :=
  grid.of_rows [[CELL_OPEN, CELL_BUILDING], [CELL_BUILDING, CELL_CRANE]]

/-- Lines 112-122: the candidate "from above" for the cell `(row, col)`. -/
def Overhead (g : grid) (A : table) (row col : Nat) : Option path :=
  if 0 < row ∧ (A (row - 1) col).isSome then
    extend_entry g (A (row - 1) col) STEP_DIRECTION_SOUTH
  else none

/-- Lines 113 and 123-130: the candidate "from west" for the cell `(row, col)`. -/
def At_West (g : grid) (A : table) (row col : Nat) : Option path :=
  if 0 < col ∧ (A row (col - 1)).isSome then
    extend_entry g (A row (col - 1)) STEP_DIRECTION_EAST
  else none

/-- The table `A` at the moment the fill loop of lines 104-154 reaches the cell
`(R, C)`: rows `0 .. R-1` are done, and so are columns `0 .. C-1` of row `R`. -/
def table_at (g : grid) (R C : Nat) : table :=
  fill_row g R C (fill_rows g R (table.set (fun _ _ => none) 0 0 (some (path.start g))))

/-- A 2x2 grid without any crane: `[[., X], [., .]]`. -/
def grid_bare : grid :=
  grid.of_rows [[CELL_OPEN, CELL_BUILDING], [CELL_OPEN, CELL_OPEN]]

/-- The 1x1 grid whose single cell is a crane. -/
def grid_1x1 : grid :=
  grid.of_rows [[CELL_CRANE]]

/-- The pairs `(steps, MyBit)` the two loops of lines 43-78 visit when the outer
loop runs `n` times, in the order they are visited. -/
def masks_upto (n : Nat) : List (Nat × Nat) :=
  (List.range n).flatMap (fun k => (List.range (Pos_Int (k + 1))).map (fun m => (k + 1, m)))

/-- The pairs `(steps, MyBit)` the exhaustive search visits on the grid `g`, in
the order it visits them. -/
def masks_tried (g : grid) : List (Nat × Nat) :=
  masks_upto (max_steps g)

/-- The step sequences the exhaustive search reads from the pairs it visits, in
the order it visits them. -/
def sequences_tried (g : grid) : List (List step_direction) :=
  (masks_tried g).map (fun sm => steps_of_mask sm.2 sm.1)

/-! ## Replaying step sequences: basic facts -/

theorem target_sum (d : step_direction) (rc : Nat × Nat) :
    (d.target rc).1 + (d.target rc).2 = rc.1 + rc.2 + 1 := by
  cases d <;> simp [step_direction.target] <;> omega

theorem end_cell_snoc (rc : Nat × Nat) (ds : List step_direction) (d : step_direction) :
    end_cell rc (ds ++ [d]) = d.target (end_cell rc ds) := by
  induction ds generalizing rc with
  | nil => rfl
  | cons e es ih => exact ih (e.target rc)

theorem replay_ok_snoc (g : grid) (rc : Nat × Nat) (ds : List step_direction)
    (d : step_direction) :
    replay_ok g rc (ds ++ [d]) =
      (replay_ok g rc ds &&
        g.may_step (d.target (end_cell rc ds)).1 (d.target (end_cell rc ds)).2) := by
  induction ds generalizing rc with
  | nil => simp [replay_ok, end_cell]
  | cons e es ih =>
    show (g.may_step (e.target rc).1 (e.target rc).2 && replay_ok g (e.target rc) (es ++ [d])) = _
    rw [ih]
    simp only [replay_ok, end_cell, Bool.and_assoc]

theorem cranes_entered_snoc (g : grid) (rc : Nat × Nat) (ds : List step_direction)
    (d : step_direction) :
    cranes_entered g rc (ds ++ [d]) =
      cranes_entered g rc ds +
        (if g.get (d.target (end_cell rc ds)).1 (d.target (end_cell rc ds)).2 = CELL_CRANE
          then 1 else 0) := by
  induction ds generalizing rc with
  | nil => simp [cranes_entered, end_cell]
  | cons e es ih =>
    show (if g.get (e.target rc).1 (e.target rc).2 = CELL_CRANE then 1 else 0) +
      cranes_entered g (e.target rc) (es ++ [d]) = _
    rw [ih]
    simp only [cranes_entered, end_cell, Nat.add_assoc]

theorem end_cell_sum (rc : Nat × Nat) (ds : List step_direction) :
    (end_cell rc ds).1 + (end_cell rc ds).2 = rc.1 + rc.2 + ds.length := by
  induction ds generalizing rc with
  | nil => simp [end_cell]
  | cons e es ih =>
    simp only [end_cell, ih, List.length_cons]
    have := target_sum e rc
    omega

theorem end_cell_origin_iff (ds : List step_direction) :
    end_cell (0, 0) ds = (0, 0) ↔ ds = [] := by
  constructor
  · intro h
    have := end_cell_sum (0, 0) ds
    rw [h] at this
    simp only [Nat.add_zero, Nat.zero_add] at this
    exact List.length_eq_zero.mp this.symm
  · intro h
    subst h
    rfl

theorem crane_count_snoc (g : grid) (ds : List step_direction) (d : step_direction) :
    crane_count g (ds ++ [d]) =
      crane_count g ds +
        (if g.get (d.target (end_cell (0, 0) ds)).1 (d.target (end_cell (0, 0) ds)).2
            = CELL_CRANE then 1 else 0) := by
  simp only [crane_count, cranes_entered_snoc, Nat.add_assoc]

theorem path_of_nil (g : grid) : path_of g [] = path.start g := rfl

theorem path_of_steps (g : grid) (ds : List step_direction) : (path_of g ds).steps = ds := rfl

theorem path_of_total_cranes (g : grid) (ds : List step_direction) :
    (path_of g ds).total_cranes = crane_count g ds := rfl

theorem path_of_final_cell (g : grid) (ds : List step_direction) :
    (path_of g ds).final_cell = end_cell (0, 0) ds := rfl

theorem path_of_add_step (g : grid) (ds : List step_direction) (d : step_direction) :
    (path_of g ds).add_step g d = path_of g (ds ++ [d]) := by
  simp only [path.add_step, path_of, path.final_cell, end_cell_snoc, crane_count_snoc]

theorem path_of_is_step_valid (g : grid) (ds : List step_direction) (d : step_direction) :
    (path_of g ds).is_step_valid g d =
      g.may_step (d.target (end_cell (0, 0) ds)).1 (d.target (end_cell (0, 0) ds)).2 := rfl

theorem replay_ok_snoc_path (g : grid) (ds : List step_direction) (d : step_direction) :
    replay_ok g (0, 0) (ds ++ [d]) =
      (replay_ok g (0, 0) ds && (path_of g ds).is_step_valid g d) := by
  rw [replay_ok_snoc, path_of_is_step_valid]

theorem path_of_injective (g : grid) (ds es : List step_direction)
    (h : path_of g ds = path_of g es) : ds = es := by
  have := congrArg path.steps h
  simpa [path_of_steps] using this

/-- A replayed sequence that stays on the grid ends inside the grid. -/
theorem end_cell_in_bounds (g : grid) (rc : Nat × Nat) (ds : List step_direction)
    (hr : rc.1 < g.rows) (hc : rc.2 < g.columns) (h : replay_ok g rc ds = true) :
    (end_cell rc ds).1 < g.rows ∧ (end_cell rc ds).2 < g.columns := by
  induction ds generalizing rc with
  | nil => exact ⟨hr, hc⟩
  | cons e es ih =>
    simp only [replay_ok, grid.may_step, Bool.and_eq_true, decide_eq_true_eq] at h
    exact ih (e.target rc) h.1.1.1 h.1.1.2 h.2

/-- A valid sequence of steps is no longer than `rows + columns - 2`. -/
theorem length_le_of_replay_ok (g : grid) (ds : List step_direction)
    (hr : 0 < g.rows) (hc : 0 < g.columns) (h : replay_ok g (0, 0) ds = true) :
    ds.length ≤ g.rows + g.columns - 2 := by
  have hb := end_cell_in_bounds g (0, 0) ds hr hc h
  have hs := end_cell_sum (0, 0) ds
  simp only [Nat.zero_add] at hs
  omega

/-! ## Bit masks and step sequences -/

theorem mask_bit (m i : Nat) : (m >>> i) &&& 1 = m / 2 ^ i % 2 := by
  rw [Nat.shiftRight_eq_div_pow, Nat.and_one_is_mod]

theorem steps_of_mask_succ (m n : Nat) :
    steps_of_mask m (n + 1) =
      steps_of_mask m n ++
        [if (m >>> n) &&& 1 = 1 then STEP_DIRECTION_EAST else STEP_DIRECTION_SOUTH] := by
  simp [steps_of_mask, List.range_succ]

theorem steps_of_mask_cons (m n : Nat) :
    steps_of_mask m (n + 1) =
      (if m % 2 = 1 then STEP_DIRECTION_EAST else STEP_DIRECTION_SOUTH) ::
        steps_of_mask (m / 2) n := by
  simp only [steps_of_mask, List.range_succ_eq_map, List.map_cons, List.map_map, mask_bit,
    pow_zero, Nat.div_one, List.cons.injEq, true_and]
  apply List.map_congr_left
  intro i _
  simp only [Function.comp_apply, Nat.succ_eq_add_one, pow_succ', Nat.div_div_eq_div_mul]

theorem length_steps_of_mask (m n : Nat) : (steps_of_mask m n).length = n := by
  simp [steps_of_mask]

theorem mask_of_lt (ds : List step_direction) : mask_of ds < 2 ^ ds.length := by
  induction ds with
  | nil => simp [mask_of]
  | cons d ds ih =>
    cases d <;> simp only [mask_of, List.length_cons, pow_succ] <;> omega

theorem steps_of_mask_mask_of (ds : List step_direction) :
    steps_of_mask (mask_of ds) ds.length = ds := by
  induction ds with
  | nil => rfl
  | cons d ds ih =>
    rw [List.length_cons, steps_of_mask_cons]
    cases d
    · have h1 : 2 * mask_of ds % 2 = 0 := by omega
      have h2 : 2 * mask_of ds / 2 = mask_of ds := by omega
      simp only [mask_of, h1, h2, ih]
      simp
    · have h1 : (2 * mask_of ds + 1) % 2 = 1 := by omega
      have h2 : (2 * mask_of ds + 1) / 2 = mask_of ds := by omega
      simp only [mask_of, h1, h2, ih]
      simp

theorem mask_of_steps_of_mask (m n : Nat) : mask_of (steps_of_mask m n) = m % 2 ^ n := by
  induction n generalizing m with
  | zero => simp [steps_of_mask, mask_of, Nat.mod_one]
  | succ n ih =>
    rw [steps_of_mask_cons, pow_succ', Nat.mod_mul]
    have h2 : m % 2 = 0 ∨ m % 2 = 1 := by omega
    rcases h2 with h | h
    · simp [h, mask_of, ih]
    · simp [h, mask_of, ih]
      omega

/-- A step sequence is determined by its length and its bit mask. -/
theorem eq_steps_of_mask (ds : List step_direction) (m n : Nat)
    (hn : ds.length = n) (hm : mask_of ds = m) : ds = steps_of_mask m n := by
  rw [← hn, ← hm, steps_of_mask_mask_of]

/-! ## The candidate built from a bit mask -/

theorem candidate_step_spec (g : grid) (m i : Nat) (cs : path × Bool)
    (ds : List step_direction)
    (h2 : cs.2 = replay_ok g (0, 0) ds) (h1 : cs.2 = true → cs.1 = path_of g ds)
    (d : step_direction)
    (hd : d = if (m >>> i) &&& 1 = 1 then STEP_DIRECTION_EAST else STEP_DIRECTION_SOUTH) :
    (candidate_step g m cs i).2 = replay_ok g (0, 0) (ds ++ [d]) ∧
      ((candidate_step g m cs i).2 = true →
        (candidate_step g m cs i).1 = path_of g (ds ++ [d])) := by
  obtain ⟨p, b⟩ := cs
  simp only at h1 h2
  rw [replay_ok_snoc_path, ← h2]
  unfold candidate_step
  by_cases hb : (m >>> i) &&& 1 = 1
  · simp only [hb, if_true] at hd ⊢
    subst hd
    cases b
    · by_cases hv : p.is_step_valid g STEP_DIRECTION_EAST = true <;> simp [hv]
    · have hp := h1 rfl
      subst hp
      by_cases hv : (path_of g ds).is_step_valid g STEP_DIRECTION_EAST = true
      · simp [hv, path_of_add_step]
      · simp [hv]
  · simp only [hb, if_false] at hd ⊢
    subst hd
    cases b
    · by_cases hv : p.is_step_valid g STEP_DIRECTION_SOUTH = true <;> simp [hv]
    · have hp := h1 rfl
      subst hp
      by_cases hv : (path_of g ds).is_step_valid g STEP_DIRECTION_SOUTH = true
      · simp [hv, path_of_add_step]
      · simp [hv]

/-- The `status` flag of a candidate says whether its step sequence is valid,
and a complete candidate is the path of that sequence. -/
theorem build_candidate_spec (g : grid) (n m : Nat) :
    (build_candidate g n m).2 = replay_ok g (0, 0) (steps_of_mask m n) ∧
      ((build_candidate g n m).2 = true →
        (build_candidate g n m).1 = path_of g (steps_of_mask m n)) := by
  unfold build_candidate
  induction n with
  | zero => exact ⟨rfl, fun _ => rfl⟩
  | succ n ih =>
    rw [List.range_succ, List.foldl_append, List.foldl_cons, List.foldl_nil,
      steps_of_mask_succ]
    exact candidate_step_spec g m n _ _ ih.1 ih.2 _ rfl

/-! ## The loops of the exhaustive search -/

theorem first_best_congr (g : grid) (n M n' M' : Nat) (best : path)
    (h : ∀ ds, enumerated n M ds ↔ enumerated n' M' ds) (hb : first_best g n M best) :
    first_best g n' M' best := by
  obtain ⟨⟨ds, h1, h2, h3⟩, h4⟩ := hb
  exact ⟨⟨ds, h1, h2, (h ds).mp h3⟩, fun es he hen => h4 es he ((h es).mpr hen)⟩

theorem enumerated_full (n : Nat) (ds : List step_direction) :
    enumerated n (2 ^ n) ds ↔ enumerated (n + 1) 0 ds := by
  unfold enumerated
  constructor
  · rintro (h | ⟨h, _⟩)
    · left; omega
    · left; omega
  · rintro (h | ⟨_, h⟩)
    · by_cases hn : ds.length = n
      · right
        refine ⟨hn, ?_⟩
        have := mask_of_lt ds
        rwa [hn] at this
      · left; omega
    · omega

theorem first_best_step (g : grid) (n M : Nat) (best : path) (hM : M < 2 ^ n)
    (hb : first_best g n M best) :
    first_best g n (M + 1) (keep_best best (build_candidate g n M)) := by
  obtain ⟨hs, hp⟩ := build_candidate_spec g n M
  obtain ⟨⟨bs, hb1, hb2, hb3⟩, hb4⟩ := hb
  have hlen : (steps_of_mask M n).length = n := length_steps_of_mask M n
  have hmask : mask_of (steps_of_mask M n) = M := by
    rw [mask_of_steps_of_mask, Nat.mod_eq_of_lt hM]
  have hsplit : ∀ es, enumerated n (M + 1) es → enumerated n M es ∨ es = steps_of_mask M n := by
    intro es he
    rcases he with h | ⟨h1, h2⟩
    · exact Or.inl (Or.inl h)
    · by_cases hm : mask_of es = M
      · exact Or.inr (eq_steps_of_mask es M n h1 hm)
      · exact Or.inl (Or.inr ⟨h1, by omega⟩)
  have hmono : ∀ es, enumerated n M es → enumerated n (M + 1) es := by
    intro es he
    rcases he with h | ⟨h1, h2⟩
    · exact Or.inl h
    · exact Or.inr ⟨h1, by omega⟩
  unfold keep_best
  by_cases hk : ((build_candidate g n M).2 &&
      decide ((build_candidate g n M).1.total_cranes > best.total_cranes)) = true
  · rw [if_pos hk]
    simp only [Bool.and_eq_true, decide_eq_true_eq] at hk
    obtain ⟨hk1, hk2⟩ := hk
    have hcand := hp hk1
    rw [hcand, path_of_total_cranes] at hk2
    rw [hcand]
    refine ⟨⟨steps_of_mask M n, rfl, ?_, Or.inr ⟨hlen, by omega⟩⟩, ?_⟩
    · rw [← hs]; exact hk1
    · intro es he hen
      rw [path_of_total_cranes, path_of_steps]
      rcases hsplit es hen with h | h
      · have := (hb4 es he h).1
        exact ⟨by omega, fun _ => by omega⟩
      · subst h
        refine ⟨Nat.le_refl _, fun hbefore => ?_⟩
        unfold enumerated_before at hbefore
        omega
  · rw [if_neg hk]
    refine ⟨⟨bs, hb1, hb2, hmono bs hb3⟩, ?_⟩
    intro es he hen
    rcases hsplit es hen with h | h
    · exact hb4 es he h
    · subst h
      have hst : (build_candidate g n M).2 = true := by rw [hs]; exact he
      have hcand := hp hst
      simp only [hst, Bool.true_and, decide_eq_true_eq, hcand, path_of_total_cranes] at hk
      refine ⟨by omega, fun hbefore => ?_⟩
      exfalso
      rw [hb1, path_of_steps] at hbefore
      unfold enumerated_before at hbefore
      unfold enumerated at hb3
      omega

theorem mask_loop_spec (g : grid) (n M : Nat) (best : path) (hM : M ≤ 2 ^ n)
    (hb : first_best g n 0 best) : first_best g n M (mask_loop g n M best) := by
  unfold mask_loop
  induction M with
  | zero => exact hb
  | succ M ih =>
    rw [List.range_succ, List.foldl_append, List.foldl_cons, List.foldl_nil]
    exact first_best_step g n M _ (by omega) (ih (by omega))

theorem Pos_Int_eq (k : Nat) (hk : k < 64) : Pos_Int k = 2 ^ k := by
  unfold Pos_Int
  rw [Nat.shiftLeft_eq, Nat.one_mul]
  exact Nat.mod_eq_of_lt (Nat.pow_lt_pow_right (by decide) hk)

theorem steps_loop_spec (g : grid) (N : Nat) (best : path) (hN : N < 64)
    (hb : first_best g 1 0 best) : first_best g (N + 1) 0 (steps_loop g N best) := by
  unfold steps_loop
  induction N with
  | zero => exact hb
  | succ N ih =>
    rw [List.range_succ, List.foldl_append, List.foldl_cons, List.foldl_nil,
      Pos_Int_eq (N + 1) hN]
    exact first_best_congr g (N + 1) (2 ^ (N + 1)) (N + 1 + 1) 0 _ (enumerated_full (N + 1))
      (mask_loop_spec g (N + 1) (2 ^ (N + 1)) _ (Nat.le_refl _) (ih (by omega)))

theorem first_best_start (g : grid) : first_best g 1 0 (path.start g) := by
  have hnil : ∀ es : List step_direction, enumerated 1 0 es → es = [] := by
    intro es he
    unfold enumerated at he
    exact List.length_eq_zero.mp (by omega)
  refine ⟨⟨[], rfl, rfl, Or.inl (by simp)⟩, ?_⟩
  intro es _ hen
  rw [hnil es hen]
  refine ⟨Nat.le_refl _, fun hbefore => ?_⟩
  unfold enumerated_before at hbefore
  simp [path.start] at hbefore

theorem max_steps_eq (g : grid) (hr : 0 < g.rows) (hc : 0 < g.columns)
    (hs : g.rows + g.columns - 2 < 64) : max_steps g = g.rows + g.columns - 2 := by
  unfold max_steps
  omega

/-- The exhaustive search returns a path, and that path is the first maximum of
the enumeration. -/
theorem exhaustive_spec (g : grid) (hr : 0 < g.rows) (hc : 0 < g.columns)
    (hs : g.rows + g.columns - 2 < 64) :
    ∃ p, crane_unloading_exhaustive g = some p ∧
      first_best g (g.rows + g.columns - 2 + 1) 0 p := by
  have hm := max_steps_eq g hr hc hs
  refine ⟨steps_loop g (max_steps g) (path.start g), ?_, ?_⟩
  · unfold crane_unloading_exhaustive
    rw [if_neg (by omega), if_neg (by omega), if_neg (by omega)]
  · rw [hm]
    exact steps_loop_spec g _ _ hs (first_best_start g)

theorem enumerated_of_replay_ok (g : grid) (ds : List step_direction)
    (hr : 0 < g.rows) (hc : 0 < g.columns) (h : replay_ok g (0, 0) ds = true) :
    enumerated (g.rows + g.columns - 2 + 1) 0 ds := by
  have := length_le_of_replay_ok g ds hr hc h
  exact Or.inl (by omega)

/-! ## The fill loop of the dynamic programming search -/

theorem table_set_same (A : table) (r c : Nat) (v : Option path) : A.set r c v r c = v := by
  simp [table.set]

theorem table_set_other (A : table) (r c r' c' : Nat) (v : Option path)
    (h : (r', c') ≠ (r, c)) : A.set r c v r' c' = A r' c' := by
  have : ¬ (r' = r ∧ c' = c) := fun ⟨h1, h2⟩ => h (by rw [h1, h2])
  simp [table.set, this]

theorem table_set_self (A : table) (r c : Nat) : A.set r c (A r c) = A := by
  funext r' c'
  unfold table.set
  split
  · next h => rw [h.1, h.2]
  · rfl

/-- The body of the fill loop writes at most the cell it handles, and what it
leaves there is the merge of the two candidates. -/
theorem fill_cell_eq (g : grid) (A : table) (row col : Nat) :
    fill_cell g A row col =
      if g.get row col ≠ CELL_BUILDING then
        A.set row col (merge_entries
          (if 0 < row ∧ (A (row - 1) col).isSome then
            extend_entry g (A (row - 1) col) STEP_DIRECTION_SOUTH else none)
          (if 0 < col ∧ (A row (col - 1)).isSome then
            extend_entry g (A row (col - 1)) STEP_DIRECTION_EAST else none)
          (A row col))
      else A := by
  unfold fill_cell
  by_cases hb : g.get row col ≠ CELL_BUILDING
  · rw [if_pos hb, if_pos hb]
    generalize (if 0 < row ∧ (A (row - 1) col).isSome then
      extend_entry g (A (row - 1) col) STEP_DIRECTION_SOUTH else none) = o
    generalize (if 0 < col ∧ (A row (col - 1)).isSome then
      extend_entry g (A row (col - 1)) STEP_DIRECTION_EAST else none) = w
    cases o with
    | none =>
      cases w with
      | none => simp [merge_entries, table_set_self]
      | some b => simp [merge_entries]
    | some a =>
      cases w with
      | none => simp [merge_entries]
      | some b =>
        by_cases hgt : a.total_cranes > b.total_cranes <;> simp [merge_entries, hgt]
  · rw [if_neg hb, if_neg hb]

theorem fill_cell_other (g : grid) (A : table) (row col r c : Nat)
    (h : (r, c) ≠ (row, col)) : fill_cell g A row col r c = A r c := by
  rw [fill_cell_eq]
  split
  · exact table_set_other A row col r c _ h
  · rfl

theorem extend_entry_guard (g : grid) (e : Option path) (d : step_direction) (k : Nat) :
    (if 0 < k ∧ e.isSome then extend_entry g e d else none) =
      if 0 < k then extend_entry g e d else none := by
  cases e with
  | none => simp [extend_entry]
  | some p => simp

theorem target_injective (d : step_direction) (a b : Nat × Nat)
    (h : d.target a = d.target b) : a = b := by
  obtain ⟨a1, a2⟩ := a
  obtain ⟨b1, b2⟩ := b
  cases d <;> simp [step_direction.target] at h <;> simp [h]

theorem reaches_snoc (g : grid) (rc : Nat × Nat) (ds : List step_direction)
    (d : step_direction) :
    reaches g rc (ds ++ [d]) ↔
      ∃ pc, reaches g pc ds ∧ d.target pc = rc ∧ g.may_step rc.1 rc.2 = true := by
  unfold reaches
  rw [replay_ok_snoc, end_cell_snoc, Bool.and_eq_true]
  constructor
  · rintro ⟨⟨h1, h2⟩, h3⟩
    exact ⟨end_cell (0, 0) ds, ⟨h1, rfl⟩, h3, by rw [← h3]; exact h2⟩
  · rintro ⟨pc, ⟨h1, h2⟩, h3, h4⟩
    subst h2
    subst h3
    exact ⟨⟨h1, h4⟩, rfl⟩

/-- Extending the best path to a cell by a valid step gives the best among the
paths that enter the next cell by that step. -/
theorem extend_entry_best (g : grid) (pc rc : Nat × Nat) (d : step_direction)
    (e : Option path) (ht : d.target pc = rc) (hv : g.may_step rc.1 rc.2 = true)
    (he : best_of g (reaches g pc) e) :
    best_of g (fun ds => ∃ ds0, ds = ds0 ++ [d] ∧ reaches g rc ds) (extend_entry g e d) := by
  cases e with
  | none =>
    intro es hes
    obtain ⟨es0, rfl, hr⟩ := hes
    obtain ⟨qc, hq, hq2, _⟩ := (reaches_snoc g rc es0 d).mp hr
    have : qc = pc := target_injective d qc pc (by rw [hq2, ht])
    subst this
    exact he es0 hq
  | some p =>
    obtain ⟨ds, hp, hds, hmax⟩ := he
    subst hp
    have hvalid : (path_of g ds).is_step_valid g d = true := by
      rw [path_of_is_step_valid, hds.2, ht]
      exact hv
    simp only [extend_entry, hvalid, if_true, path_of_add_step]
    refine ⟨ds ++ [d], rfl, ⟨ds, rfl, (reaches_snoc g rc ds d).mpr ⟨pc, hds, ht, hv⟩⟩, ?_⟩
    intro es hes
    obtain ⟨es0, rfl, hr⟩ := hes
    obtain ⟨qc, hq, hq2, _⟩ := (reaches_snoc g rc es0 d).mp hr
    have : qc = pc := target_injective d qc pc (by rw [hq2, ht])
    subst this
    have := hmax es0 hq
    rw [crane_count_snoc, crane_count_snoc, hq.2, hds.2]
    omega

theorem merge_entries_best (g : grid) (Q Q1 Q2 : List step_direction → Prop)
    (o w : Option path) (hQ : ∀ ds, Q ds ↔ Q1 ds ∨ Q2 ds)
    (ho : best_of g Q1 o) (hw : best_of g Q2 w) : best_of g Q (merge_entries o w none) := by
  cases o with
  | none =>
    cases w with
    | none =>
      intro es hes
      rcases (hQ es).mp hes with h | h
      · exact ho es h
      · exact hw es h
    | some b =>
      obtain ⟨ds, hb, hds, hmax⟩ := hw
      refine ⟨ds, hb, (hQ ds).mpr (Or.inr hds), ?_⟩
      intro es hes
      rcases (hQ es).mp hes with h | h
      · exact absurd h (ho es)
      · exact hmax es h
  | some a =>
    obtain ⟨da, ha, hda, hmaxa⟩ := ho
    cases w with
    | none =>
      refine ⟨da, ha, (hQ da).mpr (Or.inl hda), ?_⟩
      intro es hes
      rcases (hQ es).mp hes with h | h
      · exact hmaxa es h
      · exact absurd h (hw es)
    | some b =>
      obtain ⟨db, hb, hdb, hmaxb⟩ := hw
      subst ha
      subst hb
      simp only [merge_entries, path_of_total_cranes]
      by_cases hgt : crane_count g da > crane_count g db
      · rw [if_pos hgt]
        refine ⟨da, rfl, (hQ da).mpr (Or.inl hda), ?_⟩
        intro es hes
        rcases (hQ es).mp hes with h | h
        · exact hmaxa es h
        · have := hmaxb es h
          omega
      · rw [if_neg hgt]
        refine ⟨db, rfl, (hQ db).mpr (Or.inr hdb), ?_⟩
        intro es hes
        rcases (hQ es).mp hes with h | h
        · have := hmaxa es h
          omega
        · exact hmaxb es h

theorem best_of_origin (g : grid) : best_of g (reaches g (0, 0)) (some (path.start g)) := by
  refine ⟨[], rfl, ⟨rfl, rfl⟩, ?_⟩
  intro es hes
  rw [(end_cell_origin_iff es).mp hes.2]

/-- A valid non-empty step sequence ends on a cell that may be stepped on. -/
theorem may_step_of_reaches (g : grid) (rc : Nat × Nat) (ds : List step_direction)
    (h : reaches g rc ds) (hne : rc ≠ (0, 0)) : g.may_step rc.1 rc.2 = true := by
  rcases List.eq_nil_or_concat' ds with h0 | ⟨ds0, d, h0⟩
  · subst h0
    exact absurd h.2.symm hne
  · subst h0
    obtain ⟨_, _, _, hv⟩ := (reaches_snoc g rc ds0 d).mp h
    exact hv

theorem reaches_split (g : grid) (rc : Nat × Nat) (hne : rc ≠ (0, 0))
    (ds : List step_direction) :
    reaches g rc ds ↔
      (∃ ds0, ds = ds0 ++ [STEP_DIRECTION_SOUTH] ∧ reaches g rc ds) ∨
        (∃ ds0, ds = ds0 ++ [STEP_DIRECTION_EAST] ∧ reaches g rc ds) := by
  constructor
  · intro h
    rcases List.eq_nil_or_concat' ds with h0 | ⟨ds0, d, h0⟩
    · subst h0
      exact absurd h.2.symm hne
    · cases d
      · exact Or.inl ⟨ds0, h0, h⟩
      · exact Or.inr ⟨ds0, h0, h⟩
  · rintro (⟨_, _, h⟩ | ⟨_, _, h⟩) <;> exact h

/-- The entry the fill loop leaves at the cell it handles is right. -/
theorem fill_cell_entry (g : grid) (A : table) (R C : Nat) (hR : R < g.rows)
    (hC : C < g.columns) (hA : fill_inv g R C A) :
    best_of g (reaches g (R, C)) (fill_cell g A R C R C) := by
  obtain ⟨h1, h2, h3⟩ := hA
  rw [fill_cell_eq]
  by_cases horigin : (R, C) = (0, 0)
  · have hR0 : R = 0 := congrArg Prod.fst horigin
    have hC0 : C = 0 := congrArg Prod.snd horigin
    subst hR0
    subst hC0
    have : (if g.get 0 0 ≠ CELL_BUILDING then
        A.set 0 0 (merge_entries
          (if 0 < 0 ∧ (A (0 - 1) 0).isSome then
            extend_entry g (A (0 - 1) 0) STEP_DIRECTION_SOUTH else none)
          (if 0 < 0 ∧ (A 0 (0 - 1)).isSome then
            extend_entry g (A 0 (0 - 1)) STEP_DIRECTION_EAST else none)
          (A 0 0))
        else A) = A := by
      simp [merge_entries, table_set_self]
    rw [this, h3]
    exact best_of_origin g
  · have hcur : A R C = none := h2 R C (by unfold visited; simp) horigin
    by_cases hb : g.get R C ≠ CELL_BUILDING
    · rw [if_pos hb, table_set_same, hcur, extend_entry_guard, extend_entry_guard]
      have hv : g.may_step R C = true := by
        simp [grid.may_step, hR, hC, hb]
      apply merge_entries_best g _ _ _ _ _ (reaches_split g (R, C) horigin)
      · by_cases hR0 : 0 < R
        · rw [if_pos hR0]
          apply extend_entry_best g (R - 1, C) (R, C) STEP_DIRECTION_SOUTH _ _ hv
          · exact h1 (R - 1) C ⟨hC, Or.inl (by show R - 1 < R; omega)⟩
          · show (R - 1 + 1, C) = (R, C)
            rw [Nat.sub_add_cancel hR0]
        · rw [if_neg hR0]
          rintro es ⟨es0, rfl, hr⟩
          obtain ⟨pc, _, hpc, _⟩ := (reaches_snoc g (R, C) es0 STEP_DIRECTION_SOUTH).mp hr
          have : pc.1 + 1 = R := congrArg Prod.fst hpc
          omega
      · by_cases hC0 : 0 < C
        · rw [if_pos hC0]
          apply extend_entry_best g (R, C - 1) (R, C) STEP_DIRECTION_EAST _ _ hv
          · exact h1 R (C - 1) ⟨by show C - 1 < g.columns; omega,
              Or.inr ⟨rfl, by show C - 1 < C; omega⟩⟩
          · show (R, C - 1 + 1) = (R, C)
            rw [Nat.sub_add_cancel hC0]
        · rw [if_neg hC0]
          rintro es ⟨es0, rfl, hr⟩
          obtain ⟨pc, _, hpc, _⟩ := (reaches_snoc g (R, C) es0 STEP_DIRECTION_EAST).mp hr
          have : pc.2 + 1 = C := congrArg Prod.snd hpc
          omega
    · rw [if_neg hb, hcur]
      intro es hes
      have hv := may_step_of_reaches g (R, C) es hes horigin
      simp only [grid.may_step, Bool.and_eq_true, decide_eq_true_eq] at hv
      exact hb hv.2

theorem fill_cell_inv (g : grid) (A : table) (R C : Nat) (hR : R < g.rows)
    (hC : C < g.columns) (hA : fill_inv g R C A) :
    fill_inv g R (C + 1) (fill_cell g A R C) := by
  have hentry := fill_cell_entry g A R C hR hC hA
  obtain ⟨h1, h2, h3⟩ := hA
  refine ⟨?_, ?_, ?_⟩
  · intro r c hv
    by_cases hrc : (r, c) = (R, C)
    · have hr : r = R := congrArg Prod.fst hrc
      have hc : c = C := congrArg Prod.snd hrc
      subst hr
      subst hc
      exact hentry
    · rw [fill_cell_other g A R C r c hrc]
      apply h1
      obtain ⟨hv1, hv2⟩ := hv
      refine ⟨hv1, ?_⟩
      rcases hv2 with h | ⟨h, h'⟩
      · exact Or.inl h
      · refine Or.inr ⟨h, ?_⟩
        have h'' : c < C + 1 := h'
        have hr : r = R := h
        have : c ≠ C := fun hc => hrc (by rw [hr, hc])
        show c < C
        omega
  · intro r c hv hne
    have hrc : (r, c) ≠ (R, C) := by
      intro hrc
      apply hv
      rw [hrc]
      exact ⟨hC, Or.inr ⟨rfl, Nat.lt_succ_self C⟩⟩
    rw [fill_cell_other g A R C r c hrc]
    apply h2 r c _ hne
    intro hv'
    apply hv
    obtain ⟨hv1, hv2⟩ := hv'
    refine ⟨hv1, ?_⟩
    rcases hv2 with h | ⟨h, h'⟩
    · exact Or.inl h
    · exact Or.inr ⟨h, Nat.lt_succ_of_lt h'⟩
  · by_cases horigin : ((0 : Nat), (0 : Nat)) = (R, C)
    · have hr : 0 = R := congrArg Prod.fst horigin
      have hc : 0 = C := congrArg Prod.snd horigin
      subst hr
      subst hc
      have := hentry
      rw [fill_cell_eq] at this ⊢
      have hsame : (if g.get 0 0 ≠ CELL_BUILDING then
          A.set 0 0 (merge_entries
            (if 0 < 0 ∧ (A (0 - 1) 0).isSome then
              extend_entry g (A (0 - 1) 0) STEP_DIRECTION_SOUTH else none)
            (if 0 < 0 ∧ (A 0 (0 - 1)).isSome then
              extend_entry g (A 0 (0 - 1)) STEP_DIRECTION_EAST else none)
            (A 0 0))
          else A) = A := by
        simp [merge_entries, table_set_self]
      rw [hsame, h3]
    · rw [fill_cell_other g A R C 0 0 horigin, h3]

theorem fill_row_inv (g : grid) (A : table) (R n : Nat) (hR : R < g.rows)
    (hn : n ≤ g.columns) (hA : fill_inv g R 0 A) : fill_inv g R n (fill_row g R n A) := by
  unfold fill_row
  induction n with
  | zero => exact hA
  | succ n ih =>
    rw [List.range_succ, List.foldl_append, List.foldl_cons, List.foldl_nil]
    exact fill_cell_inv g _ R n hR (by omega) (ih (by omega))

theorem visited_row_end (g : grid) (R : Nat) (rc : Nat × Nat) :
    visited g R g.columns rc ↔ visited g (R + 1) 0 rc := by
  unfold visited
  omega

theorem fill_inv_row_end (g : grid) (A : table) (R : Nat) (hA : fill_inv g R g.columns A) :
    fill_inv g (R + 1) 0 A := by
  obtain ⟨h1, h2, h3⟩ := hA
  exact ⟨fun r c hv => h1 r c ((visited_row_end g R (r, c)).mpr hv),
    fun r c hv hne => h2 r c (fun hv' => hv ((visited_row_end g R (r, c)).mp hv')) hne, h3⟩

theorem fill_rows_inv (g : grid) (A : table) (n : Nat) (hn : n ≤ g.rows)
    (hA : fill_inv g 0 0 A) : fill_inv g n 0 (fill_rows g n A) := by
  unfold fill_rows
  induction n with
  | zero => exact hA
  | succ n ih =>
    rw [List.range_succ, List.foldl_append, List.foldl_cons, List.foldl_nil]
    exact fill_inv_row_end g _ n
      (fill_row_inv g _ n g.columns (by omega) (Nat.le_refl _) (ih (by omega)))

theorem fill_inv_init (g : grid) :
    fill_inv g 0 0 (table.set (fun _ _ => none) 0 0 (some (path.start g))) := by
  refine ⟨?_, ?_, table_set_same _ 0 0 _⟩
  · intro r c hv
    unfold visited at hv
    simp at hv
  · intro r c _ hne
    rw [table_set_other _ 0 0 r c _ hne]

/-- After the fill loop every cell of the grid holds the right entry, and no
entry is present outside the grid. -/
theorem fill_table_inv (g : grid) : fill_inv g g.rows 0 (fill_table g) :=
  fill_rows_inv g _ g.rows (Nat.le_refl _) (fill_inv_init g)

theorem fill_table_entry (g : grid) (r c : Nat) (hr : r < g.rows) (hc : c < g.columns) :
    best_of g (reaches g (r, c)) (fill_table g r c) :=
  (fill_table_inv g).1 r c ⟨hc, Or.inl hr⟩

theorem fill_table_origin (g : grid) : fill_table g 0 0 = some (path.start g) :=
  (fill_table_inv g).2.2

/-! ## The final scan of the dynamic programming search -/

theorem scan_cell_inv (g : grid) (A : table) (R C : Nat) (best : Nat × Nat)
    (hC : C < g.columns) (hb : scan_inv g A R C best) :
    scan_inv g A R (C + 1) (scan_cell A best R C) := by
  obtain ⟨hpos, b, hbest, hall⟩ := hb
  have hsplit : ∀ r c, visited g R (C + 1) (r, c) → visited g R C (r, c) ∨ (r, c) = (R, C) := by
    intro r c hv
    unfold visited at hv ⊢
    by_cases hrc : r = R ∧ c = C
    · exact Or.inr (by rw [hrc.1, hrc.2])
    · left
      simp only at hv ⊢
      omega
  have hmono : ∀ rc, visited g R C rc → visited g R (C + 1) rc := by
    intro rc hv
    unfold visited at hv ⊢
    omega
  have hnot_before : ¬ row_major_before (R, C) best := by
    unfold row_major_before
    rcases hpos with h | h
    · rw [h]
      simp
    · unfold visited at h
      simp only
      omega
  unfold scan_cell
  rw [hbest]
  cases hcell : A R C with
  | none =>
    refine ⟨hpos.imp id (hmono best), b, hbest, ?_⟩
    intro r c q hv hq
    rcases hsplit r c hv with h | h
    · exact hall r c q h hq
    · have hr : r = R := congrArg Prod.fst h
      have hc : c = C := congrArg Prod.snd h
      rw [hr, hc, hcell] at hq
      exact absurd hq (by simp)
  | some p =>
    simp only
    by_cases hgt : p.total_cranes > b.total_cranes
    · rw [if_pos hgt]
      refine ⟨Or.inr ⟨hC, Or.inr ⟨rfl, Nat.lt_succ_self C⟩⟩, p, hcell, ?_⟩
      intro r c q hv hq
      rcases hsplit r c hv with h | h
      · have := (hall r c q h hq).1
        exact ⟨by omega, fun _ => by omega⟩
      · have hr : r = R := congrArg Prod.fst h
        have hc : c = C := congrArg Prod.snd h
        rw [hr, hc, hcell] at hq
        have hqp : p = q := Option.some.inj hq
        subst hqp
        refine ⟨Nat.le_refl _, fun hbefore => ?_⟩
        rw [hr, hc] at hbefore
        unfold row_major_before at hbefore
        simp at hbefore
    · rw [if_neg hgt]
      refine ⟨hpos.imp id (hmono best), b, hbest, ?_⟩
      intro r c q hv hq
      rcases hsplit r c hv with h | h
      · exact hall r c q h hq
      · have hr : r = R := congrArg Prod.fst h
        have hc : c = C := congrArg Prod.snd h
        rw [hr, hc, hcell] at hq
        have hqp : p = q := Option.some.inj hq
        subst hqp
        refine ⟨by omega, fun hbefore => ?_⟩
        rw [hr, hc] at hbefore
        exact absurd hbefore hnot_before

theorem scan_row_inv (g : grid) (A : table) (R n : Nat) (best : Nat × Nat)
    (hn : n ≤ g.columns) (hb : scan_inv g A R 0 best) :
    scan_inv g A R n (scan_row A R n best) := by
  unfold scan_row
  induction n with
  | zero => exact hb
  | succ n ih =>
    rw [List.range_succ, List.foldl_append, List.foldl_cons, List.foldl_nil]
    exact scan_cell_inv g A R n _ (by omega) (ih (by omega))

theorem scan_inv_row_end (g : grid) (A : table) (R : Nat) (best : Nat × Nat)
    (hb : scan_inv g A R g.columns best) : scan_inv g A (R + 1) 0 best := by
  obtain ⟨hpos, b, hbest, hall⟩ := hb
  exact ⟨hpos.imp id (visited_row_end g R best).mp, b, hbest,
    fun r c q hv hq => hall r c q ((visited_row_end g R (r, c)).mpr hv) hq⟩

theorem scan_rows_inv (g : grid) (A : table) (n : Nat) (best : Nat × Nat)
    (hb : scan_inv g A 0 0 best) : scan_inv g A n 0 (scan_rows g A n best) := by
  unfold scan_rows
  induction n with
  | zero => exact hb
  | succ n ih =>
    rw [List.range_succ, List.foldl_append, List.foldl_cons, List.foldl_nil]
    exact scan_inv_row_end g A n _ (scan_row_inv g A n g.columns _ (Nat.le_refl _) ih)

theorem scan_inv_init (g : grid) (A : table) (b : path) (hA : A 0 0 = some b) :
    scan_inv g A 0 0 (0, 0) := by
  refine ⟨Or.inl rfl, b, hA, ?_⟩
  intro r c q hv _
  unfold visited at hv
  simp at hv

/-- The dynamic programming search returns a path: the entry of the cell
`best_cell g`, which lies in the grid, has the largest crane count of all
present entries, and is the first such cell in row-major order. -/
theorem dyn_prog_spec (g : grid) (hr : 0 < g.rows) (hc : 0 < g.columns) :
    ∃ p, crane_unloading_dyn_prog g = some p ∧
      fill_table g (best_cell g).1 (best_cell g).2 = some p ∧
      (best_cell g).1 < g.rows ∧ (best_cell g).2 < g.columns ∧
      ∀ r c q, r < g.rows → c < g.columns → fill_table g r c = some q →
        q.total_cranes ≤ p.total_cranes ∧
          (row_major_before (r, c) (best_cell g) → q.total_cranes < p.total_cranes) := by
  have horigin := fill_table_origin g
  have hscan : scan_inv g (fill_table g) g.rows 0 (best_cell g) :=
    scan_rows_inv g (fill_table g) g.rows (0, 0) (scan_inv_init g _ _ horigin)
  obtain ⟨hpos, b, hbest, hall⟩ := hscan
  refine ⟨b, ?_, hbest, ?_, ?_, ?_⟩
  · unfold crane_unloading_dyn_prog
    rw [if_neg (by omega), if_neg (by omega), if_neg (by simp [table_set_same]), horigin]
    exact hbest
  · rcases hpos with h | h
    · rw [h]; exact hr
    · unfold visited at h
      omega
  · rcases hpos with h | h
    · rw [h]; exact hc
    · exact h.1
  · intro r c q hr' hc' hq
    exact hall r c q ⟨hc', Or.inl hr'⟩ hq

/-- The path returned by the dynamic programming search is the path of a valid
step sequence, and no valid step sequence collects more cranes. -/
theorem dyn_prog_optimal (g : grid) (hr : 0 < g.rows) (hc : 0 < g.columns) :
    ∃ p ds, crane_unloading_dyn_prog g = some p ∧ p = path_of g ds ∧
      replay_ok g (0, 0) ds = true ∧
      ∀ es, replay_ok g (0, 0) es = true → crane_count g es ≤ p.total_cranes := by
  obtain ⟨p, hp, hcell, hbr, hbc, hall⟩ := dyn_prog_spec g hr hc
  have hentry := fill_table_entry g _ _ hbr hbc
  rw [hcell] at hentry
  obtain ⟨ds, hpd, hreach, _⟩ := hentry
  refine ⟨p, ds, hp, hpd, hreach.1, ?_⟩
  intro es hes
  have hin := end_cell_in_bounds g (0, 0) es hr hc hes
  have he := fill_table_entry g _ _ hin.1 hin.2
  cases hq : fill_table g (end_cell (0, 0) es).1 (end_cell (0, 0) es).2 with
  | none =>
    rw [hq] at he
    exact absurd ⟨hes, rfl⟩ (he es)
  | some q =>
    rw [hq] at he
    obtain ⟨qs, hqs, _, hmax⟩ := he
    have h1 := hmax es ⟨hes, rfl⟩
    have h2 := (hall _ _ q hin.1 hin.2 hq).1
    rw [hqs, path_of_total_cranes] at h2
    omega

/-- The path returned by the exhaustive search is the path of a valid step
sequence, and no valid step sequence collects more cranes. -/
theorem exhaustive_optimal (g : grid) (hr : 0 < g.rows) (hc : 0 < g.columns)
    (hs : g.rows + g.columns - 2 < 64) :
    ∃ p ds, crane_unloading_exhaustive g = some p ∧ p = path_of g ds ∧
      replay_ok g (0, 0) ds = true ∧
      ∀ es, replay_ok g (0, 0) es = true →
        crane_count g es ≤ p.total_cranes ∧
          (enumerated_before es p.steps → crane_count g es < p.total_cranes) := by
  obtain ⟨p, hp, ⟨ds, hpd, hds, _⟩, hall⟩ := exhaustive_spec g hr hc hs
  exact ⟨p, ds, hp, hpd, hds, fun es hes =>
    hall es hes (enumerated_of_replay_ok g es hr hc hes)⟩

theorem valid_steps_iff (g : grid) (hr : 0 < g.rows) (hc : 0 < g.columns)
    (ho : g.get 0 0 ≠ CELL_BUILDING) (ds : List step_direction) :
    valid_steps g ds = true ↔ replay_ok g (0, 0) ds = true := by
  simp [valid_steps, grid.may_step, hr, hc, ho]

theorem replay_ok_iff_take (g : grid) (rc : Nat × Nat) (ds : List step_direction) :
    replay_ok g rc ds = true ↔
      ∀ k, 1 ≤ k → k ≤ ds.length →
        g.may_step (end_cell rc (ds.take k)).1 (end_cell rc (ds.take k)).2 = true := by
  induction ds generalizing rc with
  | nil =>
    simp only [replay_ok, List.length_nil, true_iff]
    intro k h1 h2
    omega
  | cons d ds ih =>
    simp only [replay_ok, Bool.and_eq_true, List.length_cons, ih]
    constructor
    · rintro ⟨h0, h⟩ k h1 h2
      obtain ⟨j, rfl⟩ : ∃ j, k = j + 1 := ⟨k - 1, by omega⟩
      simp only [List.take_succ_cons, end_cell]
      by_cases hj : j = 0
      · subst hj
        simpa [end_cell] using h0
      · exact h j (by omega) (by omega)
    · intro h
      refine ⟨?_, ?_⟩
      · have := h 1 (Nat.le_refl _) (by omega)
        simpa [end_cell] using this
      · intro k h1 h2
        have := h (k + 1) (by omega) (by omega)
        simpa only [List.take_succ_cons, end_cell] using this

theorem stays_clear_of_replay_ok (g : grid) (ds : List step_direction)
    (hr : 0 < g.rows) (hc : 0 < g.columns) (ho : g.get 0 0 ≠ CELL_BUILDING)
    (h : replay_ok g (0, 0) ds = true) : stays_clear g ds := by
  intro k hk
  by_cases hk0 : k = 0
  · subst hk0
    exact ⟨hr, hc, ho⟩
  · have := (replay_ok_iff_take g (0, 0) ds).mp h k (by omega) hk
    simpa only [grid.may_step, Bool.and_eq_true, decide_eq_true_eq, and_assoc] using this

/-- In a grid whose row 0 and column 0 are buildings beyond the origin, only the
empty step sequence is valid. -/
theorem replay_ok_walled (g : grid)
    (hrow : ∀ c, c < g.columns → 0 < c → g.get 0 c = CELL_BUILDING)
    (hcol : ∀ r, r < g.rows → 0 < r → g.get r 0 = CELL_BUILDING)
    (ds : List step_direction) (h : replay_ok g (0, 0) ds = true) : ds = [] := by
  cases ds with
  | nil => rfl
  | cons d ds =>
    exfalso
    simp only [replay_ok, grid.may_step, Bool.and_eq_true, decide_eq_true_eq] at h
    cases d
    · exact h.1.2 (hcol 1 h.1.1.1 Nat.one_pos)
    · exact h.1.2 (hrow 1 h.1.1.2 Nat.one_pos)

theorem fill_cell_origin (g : grid) (A : table) (row col : Nat) :
    fill_cell g A row col 0 0 = A 0 0 := by
  by_cases h : ((0 : Nat), (0 : Nat)) = (row, col)
  · have hr : 0 = row := congrArg Prod.fst h
    have hc : 0 = col := congrArg Prod.snd h
    subst hr
    subst hc
    rw [fill_cell_eq]
    split
    · simp [merge_entries, table_set_same]
    · rfl
  · exact fill_cell_other g A row col 0 0 h

/-! ## The claims -/

/-- C1: for every grid with at least one row and one column, a non-BUILDING
origin and `rows + columns - 2 < 64`, both algorithms return a path, and the two
returned paths have the same crane count. -/
theorem exhaustive_cranes_eq_dyn_prog_cranes (g : grid) (hr : 0 < g.rows)
    (hc : 0 < g.columns) (ho : g.get 0 0 ≠ CELL_BUILDING)
    (hs : g.rows + g.columns - 2 < 64) :
    ∃ p q, crane_unloading_exhaustive g = some p ∧ crane_unloading_dyn_prog g = some q ∧
      p.total_cranes = q.total_cranes := by
  have _ := ho
  obtain ⟨p, ds, hp, hpd, hds, hpmax⟩ := exhaustive_optimal g hr hc hs
  obtain ⟨q, es, hq, hqe, hes, hqmax⟩ := dyn_prog_optimal g hr hc
  refine ⟨p, q, hp, hq, ?_⟩
  have h1 := hqmax ds hds
  have h2 := (hpmax es hes).1
  subst hpd
  subst hqe
  simp only [path_of_total_cranes] at h1 h2 ⊢
  omega

/-- Instance of C1 on the 3x3 grid with one building. -/
theorem exhaustive_cranes_eq_dyn_prog_cranes_witness :
    ∃ p q, crane_unloading_exhaustive grid_3x3 = some p ∧
      crane_unloading_dyn_prog grid_3x3 = some q ∧ p.total_cranes = q.total_cranes :=
  exhaustive_cranes_eq_dyn_prog_cranes grid_3x3 (by decide) (by decide) (by decide) (by decide)

/-- C2: for every non-empty grid with a non-BUILDING origin and
`rows + columns - 2 < 64`, the exhaustive search returns a path which is itself
a valid South/East path from the origin, and every valid South/East step
sequence from the origin has a crane count at most that of the returned path. -/
theorem exhaustive_returns_maximum (g : grid) (hr : 0 < g.rows) (hc : 0 < g.columns)
    (ho : g.get 0 0 ≠ CELL_BUILDING) (hs : g.rows + g.columns - 2 < 64) :
    ∃ p, crane_unloading_exhaustive g = some p ∧
      valid_steps g p.steps = true ∧ p.total_cranes = crane_count g p.steps ∧
      ∀ ds, valid_steps g ds = true → crane_count g ds ≤ p.total_cranes := by
  obtain ⟨p, ds, hp, hpd, hds, hpmax⟩ := exhaustive_optimal g hr hc hs
  subst hpd
  refine ⟨path_of g ds, hp, (valid_steps_iff g hr hc ho ds).mpr hds, rfl, ?_⟩
  intro es hes
  exact (hpmax es ((valid_steps_iff g hr hc ho es).mp hes)).1

/-- Instance of C2 on the 3x3 grid with one building. -/
theorem exhaustive_returns_maximum_witness :
    ∃ p, crane_unloading_exhaustive grid_3x3 = some p ∧
      valid_steps grid_3x3 p.steps = true ∧ p.total_cranes = crane_count grid_3x3 p.steps ∧
      ∀ ds, valid_steps grid_3x3 ds = true → crane_count grid_3x3 ds ≤ p.total_cranes :=
  exhaustive_returns_maximum grid_3x3 (by decide) (by decide) (by decide) (by decide)

/-- C3: for every non-empty grid, of any size, with a non-BUILDING origin, the
dynamic programming search returns a path which is itself a valid South/East
path from the origin, and every valid South/East step sequence from the origin
has a crane count at most that of the returned path. -/
theorem dyn_prog_returns_maximum (g : grid) (hr : 0 < g.rows) (hc : 0 < g.columns)
    (ho : g.get 0 0 ≠ CELL_BUILDING) :
    ∃ p, crane_unloading_dyn_prog g = some p ∧
      valid_steps g p.steps = true ∧ p.total_cranes = crane_count g p.steps ∧
      ∀ ds, valid_steps g ds = true → crane_count g ds ≤ p.total_cranes := by
  obtain ⟨p, ds, hp, hpd, hds, hpmax⟩ := dyn_prog_optimal g hr hc
  subst hpd
  refine ⟨path_of g ds, hp, (valid_steps_iff g hr hc ho ds).mpr hds, rfl, ?_⟩
  intro es hes
  exact hpmax es ((valid_steps_iff g hr hc ho es).mp hes)

/-- Instance of C3 on the 3x3 grid with one building. -/
theorem dyn_prog_returns_maximum_witness :
    ∃ p, crane_unloading_dyn_prog grid_3x3 = some p ∧
      valid_steps grid_3x3 p.steps = true ∧ p.total_cranes = crane_count grid_3x3 p.steps ∧
      ∀ ds, valid_steps grid_3x3 ds = true → crane_count grid_3x3 ds ≤ p.total_cranes :=
  dyn_prog_returns_maximum grid_3x3 (by decide) (by decide) (by decide)

/-- C4: for every non-empty grid with a non-BUILDING origin, the steps of the
path returned by the dynamic programming search and, when
`rows + columns - 2 < 64`, of the path returned by the exhaustive search,
replayed from the origin, stay inside the grid bounds after every step and never
enter a BUILDING cell. -/
theorem returned_paths_stay_clear (g : grid) (hr : 0 < g.rows) (hc : 0 < g.columns)
    (ho : g.get 0 0 ≠ CELL_BUILDING) :
    (g.rows + g.columns - 2 < 64 →
      ∃ p, crane_unloading_exhaustive g = some p ∧ stays_clear g p.steps) ∧
      ∃ q, crane_unloading_dyn_prog g = some q ∧ stays_clear g q.steps := by
  constructor
  · intro hs
    obtain ⟨p, ds, hp, hpd, hds, _⟩ := exhaustive_optimal g hr hc hs
    subst hpd
    exact ⟨path_of g ds, hp, stays_clear_of_replay_ok g ds hr hc ho hds⟩
  · obtain ⟨q, es, hq, hqe, hes, _⟩ := dyn_prog_optimal g hr hc
    subst hqe
    exact ⟨path_of g es, hq, stays_clear_of_replay_ok g es hr hc ho hes⟩

/-- Instance of C4 on the 3x3 grid with one building. -/
theorem returned_paths_stay_clear_witness :
    (grid_3x3.rows + grid_3x3.columns - 2 < 64 →
      ∃ p, crane_unloading_exhaustive grid_3x3 = some p ∧ stays_clear grid_3x3 p.steps) ∧
      ∃ q, crane_unloading_dyn_prog grid_3x3 = some q ∧ stays_clear grid_3x3 q.steps :=
  returned_paths_stay_clear grid_3x3 (by decide) (by decide) (by decide)

/-- C6: for every non-empty grid whose origin is not BUILDING, none of the
presence assertions of the dynamic programming search fails: `A[0][0]` is
present when it is set, the body of the fill loop never changes `A[0][0]`, so
it still holds the zero-step path after the fill loop, the entry selected by the
scan is present, and the function returns that entry. -/
theorem dyn_prog_assertions_hold (g : grid) (hr : 0 < g.rows) (hc : 0 < g.columns)
    (ho : g.get 0 0 ≠ CELL_BUILDING) :
    (table.set (fun _ _ => none) 0 0 (some (path.start g)) 0 0).isSome = true ∧
      (∀ (A : table) (row col : Nat), fill_cell g A row col 0 0 = A 0 0) ∧
      fill_table g 0 0 = some (path.start g) ∧
      ∃ p, fill_table g (best_cell g).1 (best_cell g).2 = some p ∧
        crane_unloading_dyn_prog g = some p := by
  have _ := ho
  refine ⟨by simp [table_set_same], fill_cell_origin g, fill_table_origin g, ?_⟩
  obtain ⟨p, hp, hcell, _⟩ := dyn_prog_spec g hr hc
  exact ⟨p, hcell, hp⟩

/-- Instance of C6 on the 3x3 grid with one building. -/
theorem dyn_prog_assertions_hold_witness :
    (table.set (fun _ _ => none) 0 0 (some (path.start grid_3x3)) 0 0).isSome = true ∧
      (∀ (A : table) (row col : Nat), fill_cell grid_3x3 A row col 0 0 = A 0 0) ∧
      fill_table grid_3x3 0 0 = some (path.start grid_3x3) ∧
      ∃ p, fill_table grid_3x3 (best_cell grid_3x3).1 (best_cell grid_3x3).2 = some p ∧
        crane_unloading_dyn_prog grid_3x3 = some p :=
  dyn_prog_assertions_hold grid_3x3 (by decide) (by decide) (by decide)

/-- C7: for every non-empty grid with a non-BUILDING origin and
`rows + columns - 2 < 64`, the path returned by the exhaustive search is valid,
has the maximum crane count of all valid step sequences, and every valid step
sequence that comes before it in the enumeration order (fewer steps first, the
zero-step path first of all, then increasing bit mask) has a strictly smaller
crane count: it is the first maximum of the enumeration. -/
theorem exhaustive_returns_first_maximum (g : grid) (hr : 0 < g.rows)
    (hc : 0 < g.columns) (ho : g.get 0 0 ≠ CELL_BUILDING)
    (hs : g.rows + g.columns - 2 < 64) :
    ∃ p, crane_unloading_exhaustive g = some p ∧
      valid_steps g p.steps = true ∧ p.total_cranes = crane_count g p.steps ∧
      ∀ ds, valid_steps g ds = true →
        crane_count g ds ≤ p.total_cranes ∧
          (enumerated_before ds p.steps → crane_count g ds < p.total_cranes) := by
  obtain ⟨p, ds, hp, hpd, hds, hpmax⟩ := exhaustive_optimal g hr hc hs
  subst hpd
  refine ⟨path_of g ds, hp, (valid_steps_iff g hr hc ho ds).mpr hds, rfl, ?_⟩
  intro es hes
  exact hpmax es ((valid_steps_iff g hr hc ho es).mp hes)

/-- Instance of C7 on the 2x2 grid `[[., c], [c, .]]`. -/
theorem exhaustive_returns_first_maximum_witness :
    ∃ p, crane_unloading_exhaustive grid_2x2 = some p ∧
      valid_steps grid_2x2 p.steps = true ∧ p.total_cranes = crane_count grid_2x2 p.steps ∧
      ∀ ds, valid_steps grid_2x2 ds = true →
        crane_count grid_2x2 ds ≤ p.total_cranes ∧
          (enumerated_before ds p.steps → crane_count grid_2x2 ds < p.total_cranes) :=
  exhaustive_returns_first_maximum grid_2x2 (by decide) (by decide) (by decide) (by decide)

/-- C8: for every non-empty grid with a non-BUILDING origin, the path returned
by the dynamic programming search is the table entry of a cell of the grid,
`best_cell g`; every present entry of the table has a crane count at most that
entry's, and every present entry of a cell before `best_cell g` in row-major
order has a strictly smaller one. -/
theorem dyn_prog_returns_first_maximum (g : grid) (hr : 0 < g.rows) (hc : 0 < g.columns)
    (ho : g.get 0 0 ≠ CELL_BUILDING) :
    ∃ p, crane_unloading_dyn_prog g = some p ∧
      fill_table g (best_cell g).1 (best_cell g).2 = some p ∧
      (best_cell g).1 < g.rows ∧ (best_cell g).2 < g.columns ∧
      ∀ r c q, r < g.rows → c < g.columns → fill_table g r c = some q →
        q.total_cranes ≤ p.total_cranes ∧
          (row_major_before (r, c) (best_cell g) → q.total_cranes < p.total_cranes) := by
  have _ := ho
  exact dyn_prog_spec g hr hc

/-- Instance of C8 on the 3x3 grid with one building. -/
theorem dyn_prog_returns_first_maximum_witness :
    ∃ p, crane_unloading_dyn_prog grid_3x3 = some p ∧
      fill_table grid_3x3 (best_cell grid_3x3).1 (best_cell grid_3x3).2 = some p ∧
      (best_cell grid_3x3).1 < grid_3x3.rows ∧ (best_cell grid_3x3).2 < grid_3x3.columns ∧
      ∀ r c q, r < grid_3x3.rows → c < grid_3x3.columns → fill_table grid_3x3 r c = some q →
        q.total_cranes ≤ p.total_cranes ∧
          (row_major_before (r, c) (best_cell grid_3x3) →
            q.total_cranes < p.total_cranes) :=
  dyn_prog_returns_first_maximum grid_3x3 (by decide) (by decide) (by decide)

/-- C9: on the 2x2 grid `[[OPEN, CRANE], [CRANE, OPEN]]` each of the two
algorithms returns a path with exactly one step and crane count 1. -/
theorem grid_2x2_one_step_one_crane :
    (∃ p, crane_unloading_exhaustive grid_2x2 = some p ∧
        p.steps.length = 1 ∧ p.total_cranes = 1) ∧
      ∃ q, crane_unloading_dyn_prog grid_2x2 = some q ∧
        q.steps.length = 1 ∧ q.total_cranes = 1 :=
  ⟨⟨⟨[STEP_DIRECTION_SOUTH], 1, 0, 1⟩, by decide, rfl, rfl⟩,
    ⟨⟨[STEP_DIRECTION_EAST], 0, 1, 1⟩, by decide, rfl, rfl⟩⟩

/-- C10: for every non-empty grid in which `(0,0)` is OPEN and every other cell
of row 0 and of column 0 is BUILDING, the dynamic programming search and, when
`rows + columns - 2 < 64`, the exhaustive search return the zero-step path,
whatever the other cells hold. -/
theorem walled_origin_zero_step_path (g : grid) (hr : 0 < g.rows) (hc : 0 < g.columns)
    (ho : g.get 0 0 = CELL_OPEN)
    (hrow : ∀ c, c < g.columns → 0 < c → g.get 0 c = CELL_BUILDING)
    (hcol : ∀ r, r < g.rows → 0 < r → g.get r 0 = CELL_BUILDING) :
    (g.rows + g.columns - 2 < 64 →
        crane_unloading_exhaustive g = some (path.start g)) ∧
      crane_unloading_dyn_prog g = some (path.start g) ∧
      (path.start g).steps = [] ∧ (path.start g).total_cranes = 0 := by
  refine ⟨?_, ?_, rfl, by simp [path.start, ho]⟩
  · intro hs
    obtain ⟨p, ds, hp, hpd, hds, _⟩ := exhaustive_optimal g hr hc hs
    rw [replay_ok_walled g hrow hcol ds hds, path_of_nil] at hpd
    rw [hp, hpd]
  · obtain ⟨q, es, hq, hqe, hes, _⟩ := dyn_prog_optimal g hr hc
    rw [replay_ok_walled g hrow hcol es hes, path_of_nil] at hqe
    rw [hq, hqe]

/-- Instance of C10 on the 2x2 grid `[[., X], [X, c]]`. -/
theorem walled_origin_zero_step_path_witness :
    (grid_walled.rows + grid_walled.columns - 2 < 64 →
        crane_unloading_exhaustive grid_walled = some (path.start grid_walled)) ∧
      crane_unloading_dyn_prog grid_walled = some (path.start grid_walled) ∧
      (path.start grid_walled).steps = [] ∧ (path.start grid_walled).total_cranes = 0 :=
  walled_origin_zero_step_path grid_walled (by decide) (by decide) (by decide)
    (by decide) (by decide)

/-! ## Further facts for the remaining claims -/

/-- A valid replay on a grid without cranes enters no crane. -/
theorem cranes_entered_eq_zero (g : grid)
    (hno : ∀ r, r < g.rows → ∀ c, c < g.columns → g.get r c ≠ CELL_CRANE)
    (rc : Nat × Nat) (ds : List step_direction) (h : replay_ok g rc ds = true) :
    cranes_entered g rc ds = 0 := by
  induction ds generalizing rc with
  | nil => rfl
  | cons d ds ih =>
    simp only [replay_ok, grid.may_step, Bool.and_eq_true, decide_eq_true_eq] at h
    simp only [cranes_entered, ih (d.target rc) h.2, if_neg (hno _ h.1.1.1 _ h.1.1.2)]

theorem crane_count_eq_zero (g : grid) (hr : 0 < g.rows) (hc : 0 < g.columns)
    (hno : ∀ r, r < g.rows → ∀ c, c < g.columns → g.get r c ≠ CELL_CRANE)
    (ds : List step_direction) (h : replay_ok g (0, 0) ds = true) :
    crane_count g ds = 0 := by
  simp only [crane_count, cranes_entered_eq_zero g hno (0, 0) ds h, if_neg (hno 0 hr 0 hc)]

/-- C11: for every non-empty grid without a CRANE cell, whatever its shape and
its BUILDING cells (origin not BUILDING), the path returned by the dynamic
programming search and, when `rows + columns - 2 < 64`, the path returned by
the exhaustive search have crane count 0. -/
theorem no_crane_grid_zero_cranes (g : grid) (hr : 0 < g.rows) (hc : 0 < g.columns)
    (ho : g.get 0 0 ≠ CELL_BUILDING)
    (hno : ∀ r, r < g.rows → ∀ c, c < g.columns → g.get r c ≠ CELL_CRANE) :
    (g.rows + g.columns - 2 < 64 →
        ∃ p, crane_unloading_exhaustive g = some p ∧ p.total_cranes = 0) ∧
      ∃ q, crane_unloading_dyn_prog g = some q ∧ q.total_cranes = 0 := by
  have _ := ho
  constructor
  · intro hs
    obtain ⟨p, ds, hp, hpd, hds, _⟩ := exhaustive_optimal g hr hc hs
    subst hpd
    exact ⟨path_of g ds, hp, crane_count_eq_zero g hr hc hno ds hds⟩
  · obtain ⟨q, es, hq, hqe, hes, _⟩ := dyn_prog_optimal g hr hc
    subst hqe
    exact ⟨path_of g es, hq, crane_count_eq_zero g hr hc hno es hes⟩

/-- Instance of C11 on the 2x2 grid `[[., X], [., .]]`. -/
theorem no_crane_grid_zero_cranes_witness :
    (grid_bare.rows + grid_bare.columns - 2 < 64 →
        ∃ p, crane_unloading_exhaustive grid_bare = some p ∧ p.total_cranes = 0) ∧
      ∃ q, crane_unloading_dyn_prog grid_bare = some q ∧ q.total_cranes = 0 :=
  no_crane_grid_zero_cranes grid_bare (by decide) (by decide) (by decide) (by decide)

/-- C12: for every 1x1 grid whose single cell is not BUILDING, both algorithms
return a path with zero steps, whose crane count is 1 when that cell is CRANE
and 0 otherwise. -/
theorem grid_1x1_zero_step_path (g : grid) (hr : g.rows = 1) (hc : g.columns = 1)
    (ho : g.get 0 0 ≠ CELL_BUILDING) :
    ∃ p q, crane_unloading_exhaustive g = some p ∧ crane_unloading_dyn_prog g = some q ∧
      p.steps = [] ∧ q.steps = [] ∧
      p.total_cranes = (if g.get 0 0 = CELL_CRANE then 1 else 0) ∧
      q.total_cranes = (if g.get 0 0 = CELL_CRANE then 1 else 0) := by
  have _ := ho
  have hr0 : 0 < g.rows := by omega
  have hc0 : 0 < g.columns := by omega
  have hnil : ∀ ds, replay_ok g (0, 0) ds = true → ds = [] := by
    intro ds hds
    have := length_le_of_replay_ok g ds hr0 hc0 hds
    exact List.length_eq_zero.mp (by omega)
  obtain ⟨p, ds, hp, hpd, hds, _⟩ := exhaustive_optimal g hr0 hc0 (by omega)
  obtain ⟨q, es, hq, hqe, hes, _⟩ := dyn_prog_optimal g hr0 hc0
  rw [hnil ds hds] at hpd
  rw [hnil es hes] at hqe
  subst hpd
  subst hqe
  exact ⟨_, _, hp, hq, rfl, rfl, rfl, rfl⟩

/-- Instance of C12 on the 1x1 grid holding a crane. -/
theorem grid_1x1_zero_step_path_witness :
    ∃ p q, crane_unloading_exhaustive grid_1x1 = some p ∧
      crane_unloading_dyn_prog grid_1x1 = some q ∧
      p.steps = [] ∧ q.steps = [] ∧
      p.total_cranes = (if grid_1x1.get 0 0 = CELL_CRANE then 1 else 0) ∧
      q.total_cranes = (if grid_1x1.get 0 0 = CELL_CRANE then 1 else 0) :=
  grid_1x1_zero_step_path grid_1x1 (by decide) (by decide) (by decide)

theorem cranes_entered_append (g : grid) (rc : Nat × Nat) (ds es : List step_direction) :
    cranes_entered g rc (ds ++ es) =
      cranes_entered g rc ds + cranes_entered g (end_cell rc ds) es := by
  induction ds generalizing rc with
  | nil => simp [cranes_entered, end_cell]
  | cons d ds ih =>
    show (if g.get (d.target rc).1 (d.target rc).2 = CELL_CRANE then 1 else 0) +
      cranes_entered g (d.target rc) (ds ++ es) = _
    rw [ih]
    simp only [cranes_entered, end_cell, Nat.add_assoc]

theorem crane_count_take_le (g : grid) (ds : List step_direction) (k : Nat) :
    crane_count g (ds.take k) ≤ crane_count g (ds.take (k + 1)) := by
  have h : ds.take (k + 1) = ds.take k ++ (ds.take (k + 1)).drop k := by
    conv_lhs => rw [← List.take_append_drop k (ds.take (k + 1))]
    rw [List.take_take, Nat.min_eq_left (Nat.le_succ k)]
  rw [h]
  unfold crane_count
  rw [cranes_entered_append]
  omega

theorem candidate_step_total_cranes_le (g : grid) (m i : Nat) (cs : path × Bool) :
    cs.1.total_cranes ≤ (candidate_step g m cs i).1.total_cranes := by
  unfold candidate_step
  split
  · split
    · simp only [path.add_step]
      omega
    · exact Nat.le_refl _
  · split
    · simp only [path.add_step]
      omega
    · exact Nat.le_refl _

/-- C13: extending a path by a step that is valid from its current end never
lowers its total crane count; so the crane count is non-decreasing step by step
along the candidates of the exhaustive search, along the extensions of the
dynamic programming search, and along the prefixes of every step sequence. -/
theorem total_cranes_monotone (g : grid) (p : path) (d : step_direction)
    (hv : p.is_step_valid g d = true) :
    p.total_cranes ≤ (p.add_step g d).total_cranes ∧
      (∀ (m i : Nat) (cs : path × Bool),
        cs.1.total_cranes ≤ (candidate_step g m cs i).1.total_cranes) ∧
      (∀ q, extend_entry g (some p) d = some q → p.total_cranes ≤ q.total_cranes) ∧
      ∀ (ds : List step_direction) (k : Nat),
        crane_count g (ds.take k) ≤ crane_count g (ds.take (k + 1)) := by
  refine ⟨?_, candidate_step_total_cranes_le g, ?_, crane_count_take_le g⟩
  · simp only [path.add_step]
    omega
  · intro q hq
    simp only [extend_entry, hv, if_true, Option.some.injEq] at hq
    subst hq
    simp only [path.add_step]
    omega

/-- Instance of C13: the zero-step path of the 2x2 grid `[[., c], [c, .]]`
extended by a step EAST. -/
theorem total_cranes_monotone_witness :
    (path.start grid_2x2).total_cranes ≤
        ((path.start grid_2x2).add_step grid_2x2 STEP_DIRECTION_EAST).total_cranes ∧
      (∀ (m i : Nat) (cs : path × Bool),
        cs.1.total_cranes ≤ (candidate_step grid_2x2 m cs i).1.total_cranes) ∧
      (∀ q, extend_entry grid_2x2 (some (path.start grid_2x2)) STEP_DIRECTION_EAST = some q →
        (path.start grid_2x2).total_cranes ≤ q.total_cranes) ∧
      ∀ (ds : List step_direction) (k : Nat),
        crane_count grid_2x2 (ds.take k) ≤ crane_count grid_2x2 (ds.take (k + 1)) :=
  total_cranes_monotone grid_2x2 (path.start grid_2x2) STEP_DIRECTION_EAST (by decide)

/-- C14: for every non-empty grid with a non-BUILDING origin, after the fill
loop the entry of every cell `(r, c)` of the grid is present exactly when
`(r, c)` is not BUILDING and some valid South/East step sequence from the origin
ends there; and a present entry is a valid path of exactly `r + c` steps that
ends at `(r, c)` and whose crane count is the largest among the valid step
sequences ending at `(r, c)`. -/
theorem fill_table_entries_best (g : grid) (hr : 0 < g.rows) (hc : 0 < g.columns)
    (ho : g.get 0 0 ≠ CELL_BUILDING) (r c : Nat) (hr' : r < g.rows) (hc' : c < g.columns) :
    ((fill_table g r c).isSome = true ↔
        g.get r c ≠ CELL_BUILDING ∧
          ∃ ds, valid_steps g ds = true ∧ end_cell (0, 0) ds = (r, c)) ∧
      ∀ p, fill_table g r c = some p →
        valid_steps g p.steps = true ∧ p.steps.length = r + c ∧
          end_cell (0, 0) p.steps = (r, c) ∧ p.final_row = r ∧ p.final_column = c ∧
          p.total_cranes = crane_count g p.steps ∧
          ∀ ds, valid_steps g ds = true → end_cell (0, 0) ds = (r, c) →
            crane_count g ds ≤ p.total_cranes := by
  have hentry := fill_table_entry g r c hr' hc'
  constructor
  · constructor
    · intro hsome
      obtain ⟨p, hp⟩ := Option.isSome_iff_exists.mp hsome
      rw [hp] at hentry
      obtain ⟨ds, _, hreach, _⟩ := hentry
      refine ⟨?_, ds, (valid_steps_iff g hr hc ho ds).mpr hreach.1, hreach.2⟩
      by_cases horigin : (r, c) = (0, 0)
      · have h1 : r = 0 := congrArg Prod.fst horigin
        have h2 : c = 0 := congrArg Prod.snd horigin
        rw [h1, h2]
        exact ho
      · have hv := may_step_of_reaches g (r, c) ds hreach horigin
        simp only [grid.may_step, Bool.and_eq_true, decide_eq_true_eq] at hv
        exact hv.2
    · rintro ⟨_, ds, hds, hend⟩
      cases hq : fill_table g r c with
      | none =>
        rw [hq] at hentry
        exact absurd ⟨(valid_steps_iff g hr hc ho ds).mp hds, hend⟩ (hentry ds)
      | some q => rfl
  · intro p hp
    rw [hp] at hentry
    obtain ⟨ds, hpd, hreach, hmax⟩ := hentry
    subst hpd
    have hsum := end_cell_sum (0, 0) ds
    rw [hreach.2] at hsum
    simp only [Nat.zero_add] at hsum
    refine ⟨(valid_steps_iff g hr hc ho ds).mpr hreach.1, hsum.symm, hreach.2,
      congrArg Prod.fst hreach.2, congrArg Prod.snd hreach.2, rfl, ?_⟩
    intro es hes hend
    exact hmax es ⟨(valid_steps_iff g hr hc ho es).mp hes, hend⟩

/-- Instance of C14 at the cell `(1, 2)` of the 3x3 grid with one building. -/
theorem fill_table_entries_best_witness :
    ((fill_table grid_3x3 1 2).isSome = true ↔
        grid_3x3.get 1 2 ≠ CELL_BUILDING ∧
          ∃ ds, valid_steps grid_3x3 ds = true ∧ end_cell (0, 0) ds = (1, 2)) ∧
      ∀ p, fill_table grid_3x3 1 2 = some p →
        valid_steps grid_3x3 p.steps = true ∧ p.steps.length = 1 + 2 ∧
          end_cell (0, 0) p.steps = (1, 2) ∧ p.final_row = 1 ∧ p.final_column = 2 ∧
          p.total_cranes = crane_count grid_3x3 p.steps ∧
          ∀ ds, valid_steps grid_3x3 ds = true → end_cell (0, 0) ds = (1, 2) →
            crane_count grid_3x3 ds ≤ p.total_cranes :=
  fill_table_entries_best grid_3x3 (by decide) (by decide) (by decide) 1 2
    (by decide) (by decide)

/-! ## The table while the fill loop runs -/

theorem table_at_succ (g : grid) (R C : Nat) :
    table_at g R (C + 1) = fill_cell g (table_at g R C) R C := by
  unfold table_at fill_row
  rw [List.range_succ, List.foldl_append, List.foldl_cons, List.foldl_nil]

theorem table_at_row_end (g : grid) (R : Nat) :
    table_at g (R + 1) 0 = table_at g R g.columns := by
  unfold table_at fill_rows
  rw [List.range_succ, List.foldl_append, List.foldl_cons, List.foldl_nil]
  rfl

theorem table_at_final (g : grid) : table_at g g.rows 0 = fill_table g := rfl

theorem table_at_inv (g : grid) (R C : Nat) (hR : R < g.rows) (hC : C ≤ g.columns) :
    fill_inv g R C (table_at g R C) :=
  fill_row_inv g _ R C hR hC (fill_rows_inv g _ R (Nat.le_of_lt hR) (fill_inv_init g))

theorem fill_cell_eq_candidates (g : grid) (A : table) (row col : Nat) :
    fill_cell g A row col =
      if g.get row col ≠ CELL_BUILDING then
        A.set row col (merge_entries (Overhead g A row col) (At_West g A row col) (A row col))
      else A :=
  fill_cell_eq g A row col

/-- When the fill loop reaches a non-BUILDING cell, a present predecessor entry
ends on the predecessor cell, so the step into the cell is valid. -/
theorem predecessor_step_valid (g : grid) (R C : Nat) (hR : R < g.rows) (hC : C < g.columns)
    (hb : g.get R C ≠ CELL_BUILDING) (pc : Nat × Nat) (d : step_direction)
    (ht : d.target pc = (R, C)) (hvis : visited g R C pc) (p : path)
    (hp : table_at g R C pc.1 pc.2 = some p) : p.is_step_valid g d = true := by
  have hinv := (table_at_inv g R C hR (Nat.le_of_lt hC)).1 pc.1 pc.2 hvis
  rw [hp] at hinv
  obtain ⟨ds, hpd, hreach, _⟩ := hinv
  subst hpd
  rw [path_of_is_step_valid, hreach.2, ht]
  simp [grid.may_step, hR, hC, hb]

/-- C15: for every non-empty grid with a non-BUILDING origin, whenever the fill
loop handles a non-BUILDING cell `(R, C)` and the entry above it (resp. west of
it) is present, the SOUTH (resp. EAST) step from that entry is valid, so the
candidate is that entry extended into `(R, C)`: the unextended fallback is never
taken. The table handled is the one the loop body is applied to at `(R, C)`. -/
theorem dyn_prog_fallback_unreachable (g : grid) (ho : g.get 0 0 ≠ CELL_BUILDING)
    (R C : Nat) (hR : R < g.rows) (hC : C < g.columns) (hb : g.get R C ≠ CELL_BUILDING) :
    table_at g R (C + 1) = fill_cell g (table_at g R C) R C ∧
      (∀ p, 0 < R → table_at g R C (R - 1) C = some p →
        p.is_step_valid g STEP_DIRECTION_SOUTH = true ∧
          Overhead g (table_at g R C) R C = some (p.add_step g STEP_DIRECTION_SOUTH)) ∧
      (∀ p, 0 < C → table_at g R C R (C - 1) = some p →
        p.is_step_valid g STEP_DIRECTION_EAST = true ∧
          At_West g (table_at g R C) R C = some (p.add_step g STEP_DIRECTION_EAST)) := by
  have _ := ho
  refine ⟨table_at_succ g R C, ?_, ?_⟩
  · intro p hR0 hp
    have hv := predecessor_step_valid g R C hR hC hb (R - 1, C) STEP_DIRECTION_SOUTH
      (by show (R - 1 + 1, C) = (R, C); rw [Nat.sub_add_cancel hR0])
      ⟨hC, Or.inl (by show R - 1 < R; omega)⟩ p hp
    refine ⟨hv, ?_⟩
    unfold Overhead
    rw [hp]
    simp [extend_entry, hv, hR0]
  · intro p hC0 hp
    have hv := predecessor_step_valid g R C hR hC hb (R, C - 1) STEP_DIRECTION_EAST
      (by show (R, C - 1 + 1) = (R, C); rw [Nat.sub_add_cancel hC0])
      ⟨by show C - 1 < g.columns; omega, Or.inr ⟨rfl, by show C - 1 < C; omega⟩⟩ p hp
    refine ⟨hv, ?_⟩
    unfold At_West
    rw [hp]
    simp [extend_entry, hv, hC0]

/-- Instance of C15 at the cell `(1, 1)` of the 3x3 grid with one building. -/
theorem dyn_prog_fallback_unreachable_witness :
    table_at grid_3x3 1 (1 + 1) = fill_cell grid_3x3 (table_at grid_3x3 1 1) 1 1 ∧
      (∀ p, 0 < 1 → table_at grid_3x3 1 1 (1 - 1) 1 = some p →
        p.is_step_valid grid_3x3 STEP_DIRECTION_SOUTH = true ∧
          Overhead grid_3x3 (table_at grid_3x3 1 1) 1 1 =
            some (p.add_step grid_3x3 STEP_DIRECTION_SOUTH)) ∧
      (∀ p, 0 < 1 → table_at grid_3x3 1 1 1 (1 - 1) = some p →
        p.is_step_valid grid_3x3 STEP_DIRECTION_EAST = true ∧
          At_West grid_3x3 (table_at grid_3x3 1 1) 1 1 =
            some (p.add_step grid_3x3 STEP_DIRECTION_EAST)) :=
  dyn_prog_fallback_unreachable grid_3x3 (by decide) 1 1 (by decide) (by decide) (by decide)

/-- C16: the merge of the fill loop. A BUILDING cell is never written, and no
cell other than `(row, col)` is written. For a non-BUILDING cell: with both
candidates present `A[row][col]` becomes the from-above candidate exactly when
its crane count is strictly greater, and the from-west candidate otherwise;
with one candidate present it becomes that candidate; with none the table is
left unchanged, and then the entry is absent for every cell of the grid other
than the origin. -/
theorem fill_cell_merge (g : grid) (A : table) (row col : Nat) :
    (g.get row col = CELL_BUILDING → fill_cell g A row col = A) ∧
      (∀ r c, (r, c) ≠ (row, col) → fill_cell g A row col r c = A r c) ∧
      (g.get row col ≠ CELL_BUILDING →
        (∀ o w, Overhead g A row col = some o → At_West g A row col = some w →
          (o.total_cranes > w.total_cranes → fill_cell g A row col row col = some o) ∧
            (¬ o.total_cranes > w.total_cranes → fill_cell g A row col row col = some w)) ∧
          (∀ o, Overhead g A row col = some o → At_West g A row col = none →
            fill_cell g A row col row col = some o) ∧
          (∀ w, Overhead g A row col = none → At_West g A row col = some w →
            fill_cell g A row col row col = some w) ∧
          (Overhead g A row col = none → At_West g A row col = none →
            fill_cell g A row col = A)) ∧
      (row < g.rows → col < g.columns → (row, col) ≠ (0, 0) →
        table_at g row col row col = none) := by
  refine ⟨?_, fun r c h => fill_cell_other g A row col r c h, ?_, ?_⟩
  · intro hb
    rw [fill_cell_eq_candidates, if_neg (by simp [hb])]
  · intro hb
    rw [fill_cell_eq_candidates, if_pos hb]
    refine ⟨?_, ?_, ?_, ?_⟩
    · intro o w ho hw
      rw [ho, hw, table_set_same]
      constructor
      · intro hgt
        simp [merge_entries, hgt]
      · intro hgt
        simp [merge_entries, hgt]
    · intro o ho hw
      rw [ho, hw, table_set_same]
      rfl
    · intro w ho hw
      rw [ho, hw, table_set_same]
      rfl
    · intro ho hw
      rw [ho, hw]
      exact table_set_self A row col
  · intro hR hC hne
    exact (table_at_inv g row col hR (Nat.le_of_lt hC)).2.1 row col
      (by unfold visited; simp) hne

/-- Instance of C16 at the cell `(1, 1)` of the 2x2 grid `[[., c], [c, .]]`: the
two candidates collect one crane each, and the from-west candidate is stored. -/
theorem fill_cell_merge_witness :
    fill_cell grid_2x2 (table_at grid_2x2 1 1) 1 1 1 1 =
      some ⟨[STEP_DIRECTION_SOUTH, STEP_DIRECTION_EAST], 1, 1, 1⟩ :=
  (((fill_cell_merge grid_2x2 (table_at grid_2x2 1 1) 1 1).2.2.1 (by decide)).1
    ⟨[STEP_DIRECTION_EAST, STEP_DIRECTION_SOUTH], 1, 1, 1⟩
    ⟨[STEP_DIRECTION_SOUTH, STEP_DIRECTION_EAST], 1, 1, 1⟩ (by decide) (by decide)).2
    (by decide)

/-! ## The enumeration of the exhaustive search -/

theorem steps_of_mask_getElem (m n i : Nat) (hi : i < n) :
    (steps_of_mask m n)[i]? =
      some (if m.testBit i = true then STEP_DIRECTION_EAST else STEP_DIRECTION_SOUTH) := by
  unfold steps_of_mask
  rw [List.getElem?_map, List.getElem?_range hi, Option.map_some', mask_bit,
    Nat.testBit_to_div_mod]
  simp

theorem steps_of_mask_injOn (n m1 m2 : Nat) (h1 : m1 < 2 ^ n) (h2 : m2 < 2 ^ n)
    (h : steps_of_mask m1 n = steps_of_mask m2 n) : m1 = m2 := by
  have := congrArg mask_of h
  rwa [mask_of_steps_of_mask, mask_of_steps_of_mask, Nat.mod_eq_of_lt h1,
    Nat.mod_eq_of_lt h2] at this

theorem masks_upto_succ (n : Nat) :
    masks_upto (n + 1) =
      masks_upto n ++ (List.range (Pos_Int (n + 1))).map (fun m => (n + 1, m)) := by
  unfold masks_upto
  rw [List.range_succ, List.flatMap_append]
  simp

/-- The two loops of the exhaustive search handle the pairs of `masks_upto`, one
after the other, each by building its candidate and comparing it with `best`. -/
theorem steps_loop_eq_foldl (g : grid) (n : Nat) (best : path) :
    steps_loop g n best =
      (masks_upto n).foldl (fun b sm => keep_best b (build_candidate g sm.1 sm.2)) best := by
  induction n with
  | zero => rfl
  | succ n ih =>
    rw [masks_upto_succ, List.foldl_append, ← ih, List.foldl_map]
    unfold steps_loop
    rw [List.range_succ, List.foldl_append, List.foldl_cons, List.foldl_nil]
    rfl

theorem mem_masks_upto (n : Nat) (sm : Nat × Nat) :
    sm ∈ masks_upto n ↔ 1 ≤ sm.1 ∧ sm.1 ≤ n ∧ sm.2 < Pos_Int sm.1 := by
  unfold masks_upto
  simp only [List.mem_flatMap, List.mem_map, List.mem_range]
  constructor
  · rintro ⟨k, hk, m, hm, rfl⟩
    exact ⟨by show 1 ≤ k + 1; omega, by show k + 1 ≤ n; omega, hm⟩
  · rintro ⟨h1, h2, h3⟩
    refine ⟨sm.1 - 1, by omega, sm.2, ?_, ?_⟩
    · rw [Nat.sub_add_cancel h1]
      exact h3
    · rw [Nat.sub_add_cancel h1]

theorem nodup_masks_upto (n : Nat) : (masks_upto n).Nodup := by
  unfold masks_upto
  rw [List.nodup_flatMap]
  constructor
  · intro k _
    apply List.Nodup.map _ (List.nodup_range _)
    intro a b hab
    exact congrArg Prod.snd hab
  · apply List.Nodup.pairwise_of_forall_ne (List.nodup_range n)
    intro a _ b _ hab
    show List.Disjoint _ _
    intro x hxa hxb
    simp only [List.mem_map, List.mem_range] at hxa hxb
    obtain ⟨_, _, rfl⟩ := hxa
    obtain ⟨_, _, hx⟩ := hxb
    have : b + 1 = a + 1 := congrArg Prod.fst hx
    omega

theorem nodup_sequences_tried (g : grid) (hlt : max_steps g < 64) :
    (sequences_tried g).Nodup := by
  unfold sequences_tried masks_tried
  apply List.Nodup.map_on _ (nodup_masks_upto _)
  intro x hx y hy hxy
  obtain ⟨_, hx2, hx3⟩ := (mem_masks_upto _ x).mp hx
  obtain ⟨_, hy2, hy3⟩ := (mem_masks_upto _ y).mp hy
  have hlen : x.1 = y.1 := by
    have := congrArg List.length hxy
    rwa [length_steps_of_mask, length_steps_of_mask] at this
  rw [Pos_Int_eq x.1 (by omega)] at hx3
  rw [Pos_Int_eq y.1 (by omega), ← hlen] at hy3
  rw [← hlen] at hxy
  have hmask := steps_of_mask_injOn x.1 x.2 y.2 hx3 hy3 hxy
  exact Prod.ext hlen hmask

theorem mem_sequences_tried (g : grid) (hlt : max_steps g < 64) (ds : List step_direction) :
    ds ∈ sequences_tried g ↔ 1 ≤ ds.length ∧ ds.length ≤ max_steps g := by
  unfold sequences_tried masks_tried
  rw [List.mem_map]
  constructor
  · rintro ⟨sm, hsm, rfl⟩
    obtain ⟨h1, h2, _⟩ := (mem_masks_upto _ sm).mp hsm
    rw [length_steps_of_mask]
    exact ⟨h1, h2⟩
  · rintro ⟨h1, h2⟩
    refine ⟨(ds.length, mask_of ds), (mem_masks_upto _ _).mpr ⟨h1, h2, ?_⟩,
      steps_of_mask_mask_of ds⟩
    show mask_of ds < Pos_Int ds.length
    rw [Pos_Int_eq ds.length (by omega)]
    exact mask_of_lt ds

/-- C17: for every step count `n` with `1 <= n <= 63`, the loop bound
`uint64_t(1) << n` is `2^n`, and reading bits `0 .. n-1` of the mask (bit `i`
gives step `i`: 1 is EAST, 0 is SOUTH) is a bijection from the masks in
`[0, 2^n)` onto the South/East sequences of length `n`; the candidate the search
builds from a mask is complete exactly when that sequence is valid, and then has
that sequence as its steps. Hence, on every non-empty grid with
`rows + columns - 2 < 64`, the exhaustive search returns what comes out of
handling the pairs `(steps, MyBit)` of `masks_tried` one after the other, each
by building its candidate and comparing it with `best`; no pair is visited twice;
and the list of the sequences read from them has no repetition and holds exactly
the South/East sequences of each length `1 .. max_steps`: each is tried exactly
once. -/
theorem steps_of_mask_bijection (n : Nat) (h1 : 1 ≤ n) (h2 : n ≤ 63)
    (g : grid) (hr : 0 < g.rows) (hc : 0 < g.columns) (hs : g.rows + g.columns - 2 < 64) :
    Pos_Int n = 2 ^ n ∧
      Set.BijOn (fun m => steps_of_mask m n) (Set.Iio (2 ^ n)) {ds | ds.length = n} ∧
      (∀ m i, i < n →
        (steps_of_mask m n)[i]? =
          some (if m.testBit i = true then STEP_DIRECTION_EAST else STEP_DIRECTION_SOUTH)) ∧
      (∀ ds : List step_direction, ds.length = n →
        ∃! m, m < Pos_Int n ∧ steps_of_mask m n = ds) ∧
      (∀ (g' : grid) (m : Nat),
        (build_candidate g' n m).2 = replay_ok g' (0, 0) (steps_of_mask m n) ∧
          ((build_candidate g' n m).2 = true →
            (build_candidate g' n m).1.steps = steps_of_mask m n)) ∧
      crane_unloading_exhaustive g =
        some ((masks_tried g).foldl
          (fun best sm => keep_best best (build_candidate g sm.1 sm.2)) (path.start g)) ∧
      steps_loop g (max_steps g) (path.start g) =
        (masks_tried g).foldl
          (fun best sm => keep_best best (build_candidate g sm.1 sm.2)) (path.start g) ∧
      (masks_tried g).Nodup ∧
      (∀ sm, sm ∈ masks_tried g ↔ 1 ≤ sm.1 ∧ sm.1 ≤ max_steps g ∧ sm.2 < 2 ^ sm.1) ∧
      (sequences_tried g).Nodup ∧
      ∀ ds : List step_direction,
        ds ∈ sequences_tried g ↔ 1 ≤ ds.length ∧ ds.length ≤ max_steps g := by
  have _ := h1
  have hpos : Pos_Int n = 2 ^ n := Pos_Int_eq n (by omega)
  have hm := max_steps_eq g hr hc hs
  have hlt : max_steps g < 64 := by omega
  refine ⟨hpos, ⟨?_, ?_, ?_⟩, fun m i hi => steps_of_mask_getElem m n i hi, ?_, ?_,
    ?_, steps_loop_eq_foldl g _ _, nodup_masks_upto _, ?_, ?_, ?_⟩
  · intro m _
    exact length_steps_of_mask m n
  · intro m1 hm1 m2 hm2 h
    exact steps_of_mask_injOn n m1 m2 hm1 hm2 h
  · intro ds hds
    have hlen : ds.length = n := hds
    refine ⟨mask_of ds, ?_, ?_⟩
    · have := mask_of_lt ds
      rw [hlen] at this
      exact this
    · show steps_of_mask (mask_of ds) n = ds
      rw [← hlen]
      exact steps_of_mask_mask_of ds
  · intro ds hlen
    rw [hpos]
    refine ⟨mask_of ds, ⟨?_, ?_⟩, ?_⟩
    · have := mask_of_lt ds
      rw [hlen] at this
      exact this
    · rw [← hlen]
      exact steps_of_mask_mask_of ds
    · rintro m ⟨hm, hds⟩
      rw [← hds, mask_of_steps_of_mask, Nat.mod_eq_of_lt hm]
  · intro g' m
    obtain ⟨hs', hp⟩ := build_candidate_spec g' n m
    refine ⟨hs', fun hst => ?_⟩
    rw [hp hst, path_of_steps]
  · unfold crane_unloading_exhaustive
    rw [if_neg (by omega), if_neg (by omega), if_neg (by omega), steps_loop_eq_foldl]
    rfl
  · intro sm
    unfold masks_tried
    rw [mem_masks_upto]
    constructor
    · rintro ⟨a, b, c⟩
      rw [Pos_Int_eq sm.1 (by omega)] at c
      exact ⟨a, b, c⟩
    · rintro ⟨a, b, c⟩
      rw [← Pos_Int_eq sm.1 (by omega)] at c
      exact ⟨a, b, c⟩
  · exact nodup_sequences_tried g hlt
  · exact mem_sequences_tried g hlt

/-- Instance of C17 for sequences of two steps and the 3x3 grid with one
building. -/
theorem steps_of_mask_bijection_witness :
    Pos_Int 2 = 2 ^ 2 ∧
      Set.BijOn (fun m => steps_of_mask m 2) (Set.Iio (2 ^ 2)) {ds | ds.length = 2} ∧
      (∀ m i, i < 2 →
        (steps_of_mask m 2)[i]? =
          some (if m.testBit i = true then STEP_DIRECTION_EAST else STEP_DIRECTION_SOUTH)) ∧
      (∀ ds : List step_direction, ds.length = 2 →
        ∃! m, m < Pos_Int 2 ∧ steps_of_mask m 2 = ds) ∧
      (∀ (g' : grid) (m : Nat),
        (build_candidate g' 2 m).2 = replay_ok g' (0, 0) (steps_of_mask m 2) ∧
          ((build_candidate g' 2 m).2 = true →
            (build_candidate g' 2 m).1.steps = steps_of_mask m 2)) ∧
      crane_unloading_exhaustive grid_3x3 =
        some ((masks_tried grid_3x3).foldl
          (fun best sm => keep_best best (build_candidate grid_3x3 sm.1 sm.2))
          (path.start grid_3x3)) ∧
      steps_loop grid_3x3 (max_steps grid_3x3) (path.start grid_3x3) =
        (masks_tried grid_3x3).foldl
          (fun best sm => keep_best best (build_candidate grid_3x3 sm.1 sm.2))
          (path.start grid_3x3) ∧
      (masks_tried grid_3x3).Nodup ∧
      (∀ sm, sm ∈ masks_tried grid_3x3 ↔
        1 ≤ sm.1 ∧ sm.1 ≤ max_steps grid_3x3 ∧ sm.2 < 2 ^ sm.1) ∧
      (sequences_tried grid_3x3).Nodup ∧
      ∀ ds : List step_direction,
        ds ∈ sequences_tried grid_3x3 ↔ 1 ≤ ds.length ∧ ds.length ≤ max_steps grid_3x3 :=
  steps_of_mask_bijection 2 (by decide) (by decide) grid_3x3 (by decide) (by decide)
    (by decide)

/-- C18: when `rows >= 1`, `columns >= 1` and `rows + columns - 2 < 64`, the
unsigned 64-bit arithmetic of the exhaustive search does not wrap:
`rows + columns` is at least 2 and below `2^64`, so `max_steps` is the
mathematical `rows + columns - 2`; and for every `steps` in `1 .. max_steps`
the bound `uint64_t(1) << steps` is the mathematical `2^steps`, not zero, and
the loop visits exactly the masks `0 .. 2^steps - 1`. -/
theorem exhaustive_arithmetic_exact (g : grid) (hr : 1 ≤ g.rows) (hc : 1 ≤ g.columns)
    (hs : g.rows + g.columns - 2 < 64) :
    2 ≤ g.rows + g.columns ∧ g.rows + g.columns < 2 ^ 64 ∧
      max_steps g = g.rows + g.columns - 2 ∧
      ∀ steps, 1 ≤ steps → steps ≤ max_steps g →
        1 <<< steps < 2 ^ 64 ∧ Pos_Int steps = 2 ^ steps ∧ Pos_Int steps ≠ 0 ∧
          List.range (Pos_Int steps) = List.range (2 ^ steps) ∧
          ∀ m, m ∈ List.range (Pos_Int steps) ↔ m < 2 ^ steps := by
  have hm := max_steps_eq g hr hc hs
  refine ⟨by omega, by omega, hm, ?_⟩
  intro steps _ hle
  have hlt : steps < 64 := by omega
  have hpos := Pos_Int_eq steps hlt
  have hpow : 2 ^ steps < 2 ^ 64 := Nat.pow_lt_pow_right (by decide) hlt
  refine ⟨?_, hpos, ?_, by rw [hpos], ?_⟩
  · rw [Nat.shiftLeft_eq, Nat.one_mul]
    exact hpow
  · rw [hpos]
    exact Nat.pos_iff_ne_zero.mp (Nat.two_pow_pos steps)
  · intro m
    rw [hpos, List.mem_range]

/-- Instance of C18 on the 3x3 grid with one building. -/
theorem exhaustive_arithmetic_exact_witness :
    2 ≤ grid_3x3.rows + grid_3x3.columns ∧ grid_3x3.rows + grid_3x3.columns < 2 ^ 64 ∧
      max_steps grid_3x3 = grid_3x3.rows + grid_3x3.columns - 2 ∧
      ∀ steps, 1 ≤ steps → steps ≤ max_steps grid_3x3 →
        1 <<< steps < 2 ^ 64 ∧ Pos_Int steps = 2 ^ steps ∧ Pos_Int steps ≠ 0 ∧
          List.range (Pos_Int steps) = List.range (2 ^ steps) ∧
          ∀ m, m ∈ List.range (Pos_Int steps) ↔ m < 2 ^ steps :=
  exhaustive_arithmetic_exact grid_3x3 (by decide) (by decide) (by decide)

/-- C19: for every non-empty grid with a non-BUILDING origin and
`rows + columns - 2 < 64`, the path returned by the exhaustive search is valid,
has the maximum crane count, and has the fewest steps among the valid step
sequences of maximum crane count: a valid sequence that collects as many cranes
is at least as long. -/
theorem exhaustive_returns_shortest_maximum (g : grid) (hr : 0 < g.rows)
    (hc : 0 < g.columns) (ho : g.get 0 0 ≠ CELL_BUILDING)
    (hs : g.rows + g.columns - 2 < 64) :
    ∃ p, crane_unloading_exhaustive g = some p ∧
      valid_steps g p.steps = true ∧ p.total_cranes = crane_count g p.steps ∧
      (∀ ds, valid_steps g ds = true → crane_count g ds ≤ p.total_cranes) ∧
      ∀ ds, valid_steps g ds = true → p.total_cranes ≤ crane_count g ds →
        p.steps.length ≤ ds.length := by
  obtain ⟨p, ds, hp, hpd, hds, hpmax⟩ := exhaustive_optimal g hr hc hs
  subst hpd
  refine ⟨path_of g ds, hp, (valid_steps_iff g hr hc ho ds).mpr hds, rfl, ?_, ?_⟩
  · intro es hes
    exact (hpmax es ((valid_steps_iff g hr hc ho es).mp hes)).1
  · intro es hes hge
    by_contra hlt
    have hbefore : enumerated_before es (path_of g ds).steps := Or.inl (by omega)
    have := (hpmax es ((valid_steps_iff g hr hc ho es).mp hes)).2 hbefore
    omega

/-- Instance of C19 on the 3x3 grid with one building. -/
theorem exhaustive_returns_shortest_maximum_witness :
    ∃ p, crane_unloading_exhaustive grid_3x3 = some p ∧
      valid_steps grid_3x3 p.steps = true ∧ p.total_cranes = crane_count grid_3x3 p.steps ∧
      (∀ ds, valid_steps grid_3x3 ds = true → crane_count grid_3x3 ds ≤ p.total_cranes) ∧
      ∀ ds, valid_steps grid_3x3 ds = true → p.total_cranes ≤ crane_count grid_3x3 ds →
        p.steps.length ≤ ds.length :=
  exhaustive_returns_shortest_maximum grid_3x3 (by decide) (by decide) (by decide)
    (by decide)

/-- C20: the two algorithms agree on the crane count but not on the path. The
2x2 grid `[[OPEN, CRANE], [CRANE, OPEN]]` satisfies both preconditions; on it
the exhaustive search returns the single step SOUTH and the dynamic programming
search the single step EAST, each with crane count 1. -/
theorem algorithms_return_different_steps :
    ∃ g p q, 0 < g.rows ∧ 0 < g.columns ∧ g.get 0 0 ≠ CELL_BUILDING ∧
      g.rows + g.columns - 2 < 64 ∧
      g = grid_2x2 ∧
      crane_unloading_exhaustive g = some p ∧ crane_unloading_dyn_prog g = some q ∧
      p.steps = [STEP_DIRECTION_SOUTH] ∧ q.steps = [STEP_DIRECTION_EAST] ∧
      p.total_cranes = q.total_cranes ∧ p.steps ≠ q.steps :=
  ⟨grid_2x2, ⟨[STEP_DIRECTION_SOUTH], 1, 0, 1⟩, ⟨[STEP_DIRECTION_EAST], 0, 1, 1⟩,
    by decide, by decide, by decide, by decide, rfl, by decide, by decide, rfl, rfl, rfl,
    by decide⟩

end cranes
